import Mathlib

/-!
Verification of the girrgorr streaming windowed-metrics pipeline
(`girrgorr/processing.py`, `girrgorr/metrics.py`) against its
natural-language specification.

The Python code is shallowly embedded:

* a raw data row (one CSV sample) is a pair `(datetime, (accx, accy, accz))`
  of a rational timestamp and three real acceleration values;
* possibly-NaN floating point cells are embedded as `Option ℝ`
  (`none` = NaN), so a row of a padded chunk is a triple of `Option ℝ`;
* Python `round` (banker's rounding) on the exact value of a float
  expression is embedded as `pyRound : ℚ → ℤ`;
* Python integer `//` on non-negative operands is `Nat` division;
* `numpy` / `pandas` array operations are list operations, translated
  slice by slice (including quirks such as `x[-0:]` being the whole
  array and `x[0:-0]` being empty);
* the `padded` generator and the `get_metrics` loop that consumes it are
  embedded as pure recursions that also record which error (if any) the
  run raises, so `get_metrics` as a whole returns `Option` (table or
  crash).
-/

namespace Girrgorr

/-! ## Configuration arithmetic (`get_metrics`, lines 114–130) -/

/-- Python `round` (round-half-to-even) on an exact rational value:
the nearest integer, ties going to the even neighbour. -/
def pyRound (q : ℚ) : ℤ :=
  if q - ⌊q⌋ < 1/2 then ⌊q⌋
  else if (1:ℚ)/2 < q - ⌊q⌋ then ⌊q⌋ + 1
  else if ⌊q⌋ % 2 = 0 then ⌊q⌋ else ⌊q⌋ + 1

/-- `rows_in_batch = window_size * batch_size * 1000 // sampling_period`
(processing.py line 115). -/
def rowsInBatch (window_size batch_size sampling_period : ℕ) : ℕ :=
  window_size * batch_size * 1000 / sampling_period

/-- `samples_in_a_window = window_size * 1000 // sampling_period`
(processing.py line 130, and `dim1` of `separate_time_windows`). -/
def samplesPerWindow (window_size sampling_period : ℕ) : ℕ :=
  window_size * 1000 / sampling_period

/-- `median_window_size = round(1000 / sampling_period / high_pass_frequency_angles)`
followed by `padding = median_window_size // 2` (processing.py lines 125–126).
The rounded value is non-negative for positive inputs, so Python's `//`
is `Nat` division on `Int.toNat`. -/
def paddingOf (sampling_period : ℕ) (high_pass_frequency_angles : ℚ) : ℕ :=
  (pyRound (1000 / (sampling_period : ℚ) / high_pass_frequency_angles)).toNat / 2

/-- `median_window_size = 2 * padding + 1` (processing.py line 127). -/
def medianWindowSizeOf (sampling_period : ℕ) (high_pass_frequency_angles : ℚ) : ℕ :=
  2 * paddingOf sampling_period high_pass_frequency_angles + 1

/-! ## `separate_time_windows` (metrics.py lines 4–17) -/

/-- `separate_time_windows(xyz, window_size, sampling_period)`:
truncate to a whole number of windows and reshape to
`(len // dim1, dim1, -1)`.  Window `i` of the reshaped array is rows
`[i*dim1, (i+1)*dim1)` of the truncated input. -/
def separate_time_windows (xyz : List α) (window_size sampling_period : ℕ) :
    List (List α) :=
  let dim1 := window_size * 1000 / sampling_period
  let dim0 := xyz.length / dim1
  (List.range dim0).map (fun i => ((xyz.take (dim1 * dim0)).drop (i * dim1)).take dim1)

theorem separate_time_windows_length (xyz : List α) (ws sp : ℕ) :
    (separate_time_windows xyz ws sp).length = xyz.length / (ws * 1000 / sp) := by
  simp [separate_time_windows]

theorem separate_time_windows_getD (xyz : List α) (ws sp : ℕ)
    (hW : 1 ≤ ws * 1000 / sp) (d : α) (w : List α) (i j : ℕ)
    (hi : i < xyz.length / (ws * 1000 / sp)) (hj : j < ws * 1000 / sp) :
    ((separate_time_windows xyz ws sp).getD i w).getD j d =
      xyz.getD (i * (ws * 1000 / sp) + j) d := by
  set W := ws * 1000 / sp with hWdef
  have hsucc : (i + 1) * W = i * W + W := by ring
  have hidx : i * W + j < xyz.length := by
    have h2 : (i + 1) * W ≤ (xyz.length / W) * W := Nat.mul_le_mul_right W hi
    have h3 : (xyz.length / W) * W ≤ xyz.length := Nat.div_mul_le_self _ _
    omega
  have hi' : i < (separate_time_windows xyz ws sp).length := by
    rw [separate_time_windows_length]; exact hi
  rw [List.getD_eq_getElem _ _ hi']
  have hwin : (separate_time_windows xyz ws sp)[i] =
      ((xyz.take (W * (xyz.length / W))).drop (i * W)).take W := by
    simp [separate_time_windows, hWdef]
  rw [hwin]
  have hlen_take : (xyz.take (W * (xyz.length / W))).length = W * (xyz.length / W) := by
    rw [List.length_take]
    exact min_eq_left (by rw [Nat.mul_comm]; exact Nat.div_mul_le_self _ _)
  have hj' : j < (((xyz.take (W * (xyz.length / W))).drop (i * W)).take W).length := by
    rw [List.length_take, List.length_drop, hlen_take]
    have hle : (i + 1) * W ≤ W * (xyz.length / W) := by
      rw [Nat.mul_comm W]
      exact Nat.mul_le_mul_right W hi
    omega
  rw [List.getD_eq_getElem _ _ hj']
  rw [List.getElem_take, List.getElem_drop, List.getElem_take]
  rw [List.getD_eq_getElem _ _ (by omega : i * W + j < xyz.length)]

/-- **C7.** `separate_time_windows` returns `N // W` windows of `W` rows
each, window `i`, sample `j` being input row `i*W + j`; with
`N = k*W + r`, `0 < r < W`, exactly `k` windows are produced and the `r`
trailing rows appear in no window. -/
theorem claim_C7_separate_time_windows (xyz : List α) (ws sp : ℕ)
    (hW : 1 ≤ ws * 1000 / sp) :
    (separate_time_windows xyz ws sp).length = xyz.length / (ws * 1000 / sp) ∧
    (∀ w ∈ separate_time_windows xyz ws sp, w.length = ws * 1000 / sp) ∧
    (∀ (d : α) (w : List α) (i j : ℕ),
        i < xyz.length / (ws * 1000 / sp) → j < ws * 1000 / sp →
        ((separate_time_windows xyz ws sp).getD i w).getD j d =
          xyz.getD (i * (ws * 1000 / sp) + j) d) ∧
    (∀ k r : ℕ, xyz.length = k * (ws * 1000 / sp) + r → r < ws * 1000 / sp →
        (separate_time_windows xyz ws sp).length = k) := by
  refine ⟨separate_time_windows_length xyz ws sp, ?_, ?_, ?_⟩
  · intro w hw
    simp only [separate_time_windows, List.mem_map, List.mem_range] at hw
    obtain ⟨i, hi, rfl⟩ := hw
    have hsucc : (i + 1) * (ws * 1000 / sp) = i * (ws * 1000 / sp) + (ws * 1000 / sp) := by
      ring
    have h3 : (xyz.length / (ws * 1000 / sp)) * (ws * 1000 / sp) ≤ xyz.length :=
      Nat.div_mul_le_self _ _
    have h2 : (i + 1) * (ws * 1000 / sp) ≤
        (xyz.length / (ws * 1000 / sp)) * (ws * 1000 / sp) :=
      Nat.mul_le_mul_right _ hi
    have h4 : (ws * 1000 / sp) * (xyz.length / (ws * 1000 / sp)) =
        (xyz.length / (ws * 1000 / sp)) * (ws * 1000 / sp) := Nat.mul_comm _ _
    rw [List.length_take, List.length_drop, List.length_take]
    omega
  · intro d w i j hi hj
    exact separate_time_windows_getD xyz ws sp hW d w i j hi hj
  · intro k r hkr hr
    rw [separate_time_windows_length, hkr, Nat.mul_comm k, Nat.mul_add_div hW,
      Nat.div_eq_of_lt hr]
    omega

/-- Witness for C7 at a concrete input: 7 rows, `W = 2` (ws = 1 s,
sp = 500 ms) give 3 windows; window 1 sample 0 is row 2. -/
theorem claim_C7_witness :
    (1 ≤ 1 * 1000 / 500) ∧
    (separate_time_windows [10, 20, 30, 40, 50, 60, 70] 1 500).length =
      [10, 20, 30, 40, 50, 60, 70].length / (1 * 1000 / 500) ∧
    ((separate_time_windows [10, 20, 30, 40, 50, 60, 70] 1 500).getD 1 []).getD 0 0 =
      [10, 20, 30, 40, 50, 60, 70].getD (1 * (1 * 1000 / 500) + 0) (0 : ℕ) := by
  refine ⟨by decide,
    (claim_C7_separate_time_windows [10, 20, 30, 40, 50, 60, 70] 1 500 (by decide)).1, ?_⟩
  exact (claim_C7_separate_time_windows [10, 20, 30, 40, 50, 60, 70] 1 500
    (by decide)).2.2.1 0 [] 1 0 (by decide) (by decide)

/-! ## C3: the rolling-median window width -/

/-- **C3, counterexample.**  The claim states
`M = 2 * round(1000 / sampling_period / high_pass_frequency_angles / 2) + 1`.
At `sampling_period = 125` ms, `high_pass_frequency_angles = 5/2` Hz the
exact quotient is `16/5 = 3.2`; the code computes
`2 * (round(3.2) // 2) + 1 = 3` while the claimed formula gives
`2 * round(1.6) + 1 = 5`. -/
theorem claim_C3_counterexample :
    (medianWindowSizeOf 125 (5/2) : ℤ) ≠ 2 * pyRound (1000 / 125 / (5/2) / 2) + 1 := by
  have h1 : pyRound (1000 / ((125:ℕ) : ℚ) / (5/2)) = 3 := by unfold pyRound; norm_num
  have h2 : pyRound (1000 / (125:ℚ) / (5/2) / 2) = 2 := by unfold pyRound; norm_num
  rw [show (1000 / 125 / (5/2) / 2 : ℚ) = 1000 / (125:ℚ) / (5/2) / 2 by norm_num, h2]
  unfold medianWindowSizeOf paddingOf
  rw [h1]
  decide

/-- **C3, amended.**  The rolling-median window width equals
`2 * (round(1000 / sampling_period / high_pass_frequency_angles) // 2) + 1`,
i.e. `round(1000 / sampling_period / high_pass_frequency_angles)` rounded
**up to the nearest odd value** (the quotient is rounded to an integer
first, then raised to the next odd number); in every case `M` is odd. -/
theorem claim_C3_amended (sp : ℕ) (hpa : ℚ) :
    medianWindowSizeOf sp hpa =
      (if (pyRound (1000 / (sp : ℚ) / hpa)).toNat % 2 = 1
        then (pyRound (1000 / (sp : ℚ) / hpa)).toNat
        else (pyRound (1000 / (sp : ℚ) / hpa)).toNat + 1) ∧
    medianWindowSizeOf sp hpa % 2 = 1 := by
  unfold medianWindowSizeOf paddingOf
  constructor
  · split <;> omega
  · omega

/-! ## C4: chunk row count versus samples per window -/

/-- **C4, counterexample.**  The claim quantifies over all positive
`window_size`, `batch_size`, `sampling_period`.  At `window_size = 1`,
`batch_size = 4`, `sampling_period = 3`:
`rows_in_batch = 4000 // 3 = 1333` is not a multiple of
`samples_per_window = 1000 // 3 = 333`. -/
theorem claim_C4_counterexample :
    ¬ samplesPerWindow 1 3 ∣ rowsInBatch 1 4 3 := by
  decide

/-- **C4, amended.**  When `sampling_period` divides `window_size * 1000`
(so a window is a whole number of samples), `rows_in_batch` equals
`batch_size * samples_per_window` and hence is an integer multiple of
`samples_per_window`, so a window never spans two chunks. -/
theorem claim_C4_amended (ws bs sp : ℕ) (h : sp ∣ ws * 1000) :
    rowsInBatch ws bs sp = bs * samplesPerWindow ws sp ∧
    samplesPerWindow ws sp ∣ rowsInBatch ws bs sp := by
  have h1 : rowsInBatch ws bs sp = bs * samplesPerWindow ws sp := by
    unfold rowsInBatch samplesPerWindow
    rw [show ws * bs * 1000 = bs * (ws * 1000) by ring]
    exact Nat.mul_div_assoc bs h
  exact ⟨h1, ⟨bs, by rw [h1, Nat.mul_comm]⟩⟩

/-- Witness for C4 (amended) at `window_size = 1`, `batch_size = 7`,
`sampling_period = 500`. -/
theorem claim_C4_witness :
    (500 ∣ 1 * 1000) ∧ rowsInBatch 1 7 500 = 7 * samplesPerWindow 1 500 :=
  ⟨by decide, (claim_C4_amended 1 7 500 (by decide)).1⟩

/-! ## The `padded` generator (processing.py lines 24–84)

`padded` is a generator; its consumer-visible behaviour is the list of
`(chunk, padded_chunk)` pairs it yields before finishing or raising.  It
is polymorphic in the row shape (numpy is shape-generic), so the
embedding is parametrised by the row type `τ` of the incoming chunks, a
NaN-able row type `ρ`, the embedding `inj : τ → ρ` of a data row and the
all-NaN row `nan : ρ` (`numpy.nan * numpy.zeros(...)`). -/

/-- The error a consumer of the `padded` generator can observe:
`shortChunk` is the `assert len(chunk) >= padding` internal-consistency
failure, `emptyStream` the `next(it)` failure on an empty iterator. -/
inductive PadError where
  | shortChunk : PadError
  | emptyStream : PadError
deriving DecidableEq

/-- Python `chunk[-padding:]`: the last `padding` rows — or the whole
array when `padding = 0`, since `x[-0:]` is `x[0:]`, i.e. all of `x`. -/
def pyLastRows (l : List α) (p : ℕ) : List α :=
  if p = 0 then l else l.drop (l.length - p)

/-- The `for next_chunk in it` loop of `padded`.  State: `prepend` and
`append` are the current prefix/suffix blocks, `chunk` the buffered
chunk, `rest` the chunks not yet pulled.  Returns the pairs yielded
before any error, and the error raised (if any).  Mirrors lines 70–84:
the assert fires before the short chunk's own pair is yielded;
`nan_append = max(0, padding - len(next_chunk))`; the suffix of a
non-final chunk is `next_chunk[:padding]` plus `append[:nan_append]`;
after the yield, `prepend = chunk[-padding:]`, `append = append[nan_append:]`. -/
def paddedGo (inj : τ → ρ) (nan : ρ) (p : ℕ) :
    List ρ → List ρ → List τ → List (List τ) →
    List (List τ × List ρ) × Option PadError
  | prepend, append, chunk, [] =>
      ([(chunk, prepend ++ chunk.map inj ++ append)], none)
  | prepend, append, chunk, next :: rest =>
      if chunk.length < p then ([], some .shortChunk)
      else
        let nan_append := p - next.length
        let pair := (chunk,
          prepend ++ chunk.map inj ++ (next.take p).map inj ++ append.take nan_append)
        let r := paddedGo inj nan p ((pyLastRows chunk p).map inj)
            (append.drop nan_append) next rest
        (pair :: r.1, r.2)

/-- `padded(it, padding)` consumed to exhaustion: the `(chunk,
padded_chunk)` pairs yielded, and the error raised (if any).  The
initial prefix and suffix blocks are `padding` NaN rows (line 59). -/
def paddedRun (inj : τ → ρ) (nan : ρ) (cs : List (List τ)) (p : ℕ) :
    List (List τ × List ρ) × Option PadError :=
  match cs with
  | [] => ([], some .emptyStream)
  | c :: rest =>
      paddedGo inj nan p (List.replicate p nan) (List.replicate p nan) c rest

/-! ## C2: the shape of the padded chunks -/

/-- Claim-side description (C2, amended): the prefix pad of the first
chunk is `p` NaN rows, the prefix pad of a later chunk is the last `p`
rows of the previous unpadded chunk. -/
def specPadHead (p : ℕ) (prev : Option (List ℚ)) : List (Option ℚ) :=
  match prev with
  | none => List.replicate p none
  | some c => (c.drop (c.length - p)).map some

/-- Claim-side description (C2, amended) of the pairs yielded by
`padded`, by recursion over the stream with the previous chunk carried
along.  A non-final chunk's suffix pad is the first `p` rows of the next
chunk, NaN-filled up to `p` rows; the final chunk's suffix pad is `p`
NaN rows when it is the only chunk of the stream, and otherwise
`min p (length of the final chunk)` NaN rows. -/
def specPadPairs (p : ℕ) (prev : Option (List ℚ)) :
    List (List ℚ) → List (List ℚ × List (Option ℚ))
  | [] => []
  | [c] => [(c, specPadHead p prev ++ c.map some ++
      (match prev with
       | none => List.replicate p none
       | some _ => List.replicate (min p c.length) none))]
  | c :: next :: rest =>
      (c, specPadHead p prev ++ c.map some ++ (next.take p).map some ++
        List.replicate (p - next.length) none) ::
      specPadPairs p (some c) (next :: rest)

theorem paddedGo_eq_spec (p : ℕ) (hp : 1 ≤ p) :
    ∀ (rest : List (List ℚ)) (chunk : List ℚ) (prev : Option (List ℚ))
      (append : List (Option ℚ)),
      (∀ c ∈ (chunk :: rest).dropLast, p ≤ c.length) →
      append = (match rest, prev with
        | [], some _ => List.replicate (min p chunk.length) (none : Option ℚ)
        | _, _ => List.replicate p none) →
      paddedGo some none p (specPadHead p prev) append chunk rest =
        (specPadPairs p prev (chunk :: rest), none) := by
  intro rest
  induction rest with
  | nil =>
    intro chunk prev append _ happ
    cases prev with
    | none => simp [paddedGo, specPadPairs, happ]
    | some c => simp [paddedGo, specPadPairs, happ]
  | cons next rest ih =>
    intro chunk prev append hlen happ
    have hchunk : p ≤ chunk.length := by
      apply hlen
      simp [List.dropLast_cons_of_ne_nil]
    have happ' : append = List.replicate p (none : Option ℚ) := by
      cases prev <;> simpa using happ
    subst happ'
    have hnotshort : ¬ chunk.length < p := by omega
    have hp0 : p ≠ 0 := by omega
    have hlast : (pyLastRows chunk p).map some = specPadHead p (some chunk) := by
      simp only [pyLastRows, specPadHead, if_neg hp0]
    have htake : (List.replicate p (none : Option ℚ)).take (p - next.length) =
        List.replicate (p - next.length) none := by
      rw [List.take_replicate]
      congr 1
      omega
    cases rest with
    | nil =>
      -- `next` is the final chunk: unfold both steps directly.
      have hdrop : (List.replicate p (none : Option ℚ)).drop (p - next.length) =
          List.replicate (min p next.length) none := by
        rw [List.drop_replicate]
        congr 1
        omega
      simp only [paddedGo, if_neg hnotshort, hlast, hdrop, htake]
      simp [specPadPairs]
    | cons c2 rest2 =>
      -- `next` is not final, hence `p ≤ next.length`: no NaN fill here.
      have hnext : p ≤ next.length := by
        apply hlen
        simp [List.dropLast_cons_of_ne_nil]
      have h0 : p - next.length = 0 := by omega
      rw [paddedGo, if_neg hnotshort]
      simp only [hlast, h0, List.take_zero, List.drop_zero]
      rw [ih next (some chunk) (List.replicate p none) ?hl rfl]
      case hl =>
        intro c hc
        apply hlen
        rw [List.dropLast_cons_of_ne_nil (by simp)]
        rw [List.dropLast_cons_of_ne_nil (by simp)] at hc
        simp at hc ⊢
        tauto
      simp [specPadPairs, h0]

/-- **C2, counterexample.**  The claim asserts
`len(padded_chunk) = len(chunk) + 2*padding` for every chunk of every
stream.  For the stream `[[1, 2], [3]]` with `padding = 2` the padded
variant of the final chunk `[3]` has 4 rows (`[some 1, some 2, some 3,
none]`): the suffix pad holds only one NaN row, not two, because
`append` was consumed by `append[nan_append:]` while padding the
previous chunk, so `4 ≠ 1 + 2*2`. -/
theorem claim_C2_counterexample :
    ((paddedRun some none [[(1:ℚ), 2], [3]] 2).1.map (fun pr => pr.2.length)) = [6, 4] ∧
    (4:ℕ) ≠ 1 + 2 * 2 := by
  constructor
  · rfl
  · decide

/-- Helper: the first components of `specPadPairs` are the chunks. -/
theorem specPadPairs_map_fst (p : ℕ) :
    ∀ (rest : List (List ℚ)) (c : List ℚ) (prev : Option (List ℚ)),
      (specPadPairs p prev (c :: rest)).map Prod.fst = c :: rest := by
  intro rest
  induction rest with
  | nil => intro c prev; simp [specPadPairs]
  | cons next rest ih =>
    intro c prev
    show _ :: (specPadPairs p (some c) (next :: rest)).map Prod.fst = _
    rw [ih next (some c)]

/-- **C2, amended.**  For every nonempty stream whose non-final chunks
all have at least `padding ≥ 1` rows, `padded` yields exactly one pair
per chunk, in order, with the pads described by `specPadPairs`: prefix
pad `p` NaN rows for the first chunk and the last `p` rows of the
previous unpadded chunk afterwards; suffix pad the first `p` rows of the
next chunk NaN-filled up to `p` rows for a non-final chunk, and for the
final chunk `p` NaN rows when the stream has one chunk, else
`min p (length of final chunk)` NaN rows — so
`len(padded_chunk) = len(chunk) + 2*p` except for the final chunk of a
multi-chunk stream when it is shorter than `p`. -/
theorem claim_C2_amended (cs : List (List ℚ)) (p : ℕ) (hcs : cs ≠ [])
    (hp : 1 ≤ p) (hlen : ∀ c ∈ cs.dropLast, p ≤ c.length) :
    paddedRun some none cs p = (specPadPairs p none cs, none) ∧
    (paddedRun some none cs p).1.map Prod.fst = cs := by
  match cs, hcs with
  | c :: rest, _ =>
    have h1 : paddedRun some none (c :: rest) p =
        (specPadPairs p none (c :: rest), none) := by
      have h := paddedGo_eq_spec p hp rest c none (List.replicate p none) hlen ?ha
      case ha => cases rest <;> rfl
      simpa [paddedRun, specPadHead] using h
    refine ⟨h1, ?_⟩
    rw [h1]
    exact specPadPairs_map_fst p rest c none

/-- Witness for C2 (amended) at the stream `[[1,2,3],[4]]`, `p = 2`:
the padded chunks are `[n,n,1,2,3,4,n]` and `[2,3,4,n]`. -/
theorem claim_C2_witness :
    ([[(1:ℚ), 2, 3], [4]] ≠ ([] : List (List ℚ))) ∧
    paddedRun some none [[(1:ℚ), 2, 3], [4]] 2 =
      (specPadPairs 2 none [[(1:ℚ), 2, 3], [4]], none) :=
  ⟨by simp,
    (claim_C2_amended [[(1:ℚ), 2, 3], [4]] 2 (by simp) (by omega)
      (by intro c hc; simp at hc; subst hc; simp)).1⟩

/-! ## C5: the internal-consistency error of `padded` -/

theorem paddedGo_err_iff {τ ρ : Type} (inj : τ → ρ) (nan : ρ) (p : ℕ) :
    ∀ (rest : List (List τ)) (chunk : List τ) (prepend append : List ρ),
      ((paddedGo inj nan p prepend append chunk rest).2 = some PadError.shortChunk ↔
        ∃ i, i + 1 < (chunk :: rest).length ∧ ((chunk :: rest).getD i []).length < p) := by
  intro rest
  induction rest with
  | nil =>
    intro chunk prepend append
    simp [paddedGo]
  | cons next rest ih =>
    intro chunk prepend append
    by_cases hshort : chunk.length < p
    · have hgo : (paddedGo inj nan p prepend append chunk (next :: rest)).2 =
          some PadError.shortChunk := by
        rw [paddedGo, if_pos hshort]
      rw [hgo]
      constructor
      · intro _
        refine ⟨0, ?_, by simpa using hshort⟩
        simp only [List.length_cons]
        omega
      · intro _
        rfl
    · have hgo : (paddedGo inj nan p prepend append chunk (next :: rest)).2 =
          (paddedGo inj nan p ((pyLastRows chunk p).map inj)
            (append.drop (p - next.length)) next rest).2 := by
        rw [paddedGo, if_neg hshort]
      rw [hgo, ih next _ _]
      constructor
      · rintro ⟨i, hi, hs⟩
        refine ⟨i + 1, ?_, by simpa using hs⟩
        simp only [List.length_cons] at hi ⊢
        omega
      · rintro ⟨i, hi, hs⟩
        match i with
        | 0 => exact absurd (by simpa using hs) hshort
        | j + 1 =>
          refine ⟨j, ?_, by simpa using hs⟩
          simp only [List.length_cons] at hi ⊢
          omega

theorem paddedGo_err_ne_empty {τ ρ : Type} (inj : τ → ρ) (nan : ρ) (p : ℕ) :
    ∀ (rest : List (List τ)) (chunk : List τ) (prepend append : List ρ),
      (paddedGo inj nan p prepend append chunk rest).2 ≠ some PadError.emptyStream := by
  intro rest
  induction rest with
  | nil => intro chunk prepend append; simp [paddedGo]
  | cons next rest ih =>
    intro chunk prepend append
    by_cases hshort : chunk.length < p
    · rw [paddedGo, if_pos hshort]
      simp
    · have hgo : (paddedGo inj nan p prepend append chunk (next :: rest)).2 =
          (paddedGo inj nan p ((pyLastRows chunk p).map inj)
            (append.drop (p - next.length)) next rest).2 := by
        rw [paddedGo, if_neg hshort]
      rw [hgo]
      exact ih next _ _

theorem paddedGo_err_pairs {τ ρ : Type} (inj : τ → ρ) (nan : ρ) (p : ℕ) :
    ∀ (rest : List (List τ)) (chunk : List τ) (prepend append : List ρ),
      (paddedGo inj nan p prepend append chunk rest).2 = some PadError.shortChunk →
      (paddedGo inj nan p prepend append chunk rest).1.length + 1 <
          (chunk :: rest).length ∧
      ((chunk :: rest).getD
          (paddedGo inj nan p prepend append chunk rest).1.length []).length < p ∧
      ∀ j < (paddedGo inj nan p prepend append chunk rest).1.length,
        ((paddedGo inj nan p prepend append chunk rest).1.getD j ([], [])).1 =
          (chunk :: rest).getD j [] := by
  intro rest
  induction rest with
  | nil =>
    intro chunk prepend append h
    simp [paddedGo] at h
  | cons next rest ih =>
    intro chunk prepend append h
    by_cases hshort : chunk.length < p
    · have hgo : paddedGo inj nan p prepend append chunk (next :: rest) =
          ([], some PadError.shortChunk) := by
        rw [paddedGo, if_pos hshort]
      rw [hgo]
      refine ⟨by simp only [List.length_cons, List.length_nil]; omega,
        by simpa using hshort, ?_⟩
      intro j hj
      simp at hj
    · have hgo : paddedGo inj nan p prepend append chunk (next :: rest) =
          ((chunk, prepend ++ chunk.map inj ++ (next.take p).map inj ++
              append.take (p - next.length)) ::
            (paddedGo inj nan p ((pyLastRows chunk p).map inj)
              (append.drop (p - next.length)) next rest).1,
           (paddedGo inj nan p ((pyLastRows chunk p).map inj)
              (append.drop (p - next.length)) next rest).2) := by
        rw [paddedGo, if_neg hshort]
      rw [hgo] at h ⊢
      simp only at h
      obtain ⟨h1, h2, h3⟩ := ih next ((pyLastRows chunk p).map inj)
        (append.drop (p - next.length)) h
      refine ⟨?_, ?_, ?_⟩
      · simp only [List.length_cons] at h1 ⊢
        omega
      · simpa using h2
      · intro j hj
        match j with
        | 0 => simp
        | k + 1 =>
          simp only [List.length_cons] at hj
          have hk := h3 k (by omega)
          simpa using hk

/-- **C5.**  `padded(it, padding)` raises its internal-consistency
assertion iff some non-final chunk is shorter than `padding`; a stream
with no short non-final chunk (in particular one whose final chunk is
short) is accepted without that error; and when the error is raised, the
pair of the offending chunk has not been emitted: the pairs yielded are
exactly those of the chunks strictly before the first short non-final
chunk. -/
theorem claim_C5_padded_error (cs : List (List ℚ)) (p : ℕ) :
    ((paddedRun some none cs p).2 = some PadError.shortChunk ↔
      ∃ i, i + 1 < cs.length ∧ (cs.getD i []).length < p) ∧
    (cs ≠ [] → (¬ ∃ i, i + 1 < cs.length ∧ (cs.getD i []).length < p) →
      (paddedRun some none cs p).2 = none) ∧
    ((paddedRun some none cs p).2 = some PadError.shortChunk →
      (paddedRun some none cs p).1.length + 1 < cs.length ∧
      (cs.getD (paddedRun some none cs p).1.length []).length < p ∧
      ∀ j < (paddedRun some none cs p).1.length,
        ((paddedRun some none cs p).1.getD j ([], [])).1 = cs.getD j []) := by
  match cs with
  | [] =>
    refine ⟨?_, ?_, ?_⟩
    · simp only [paddedRun]
      constructor
      · intro h
        simp at h
      · rintro ⟨i, hi, _⟩
        simp at hi
    · intro h
      exact absurd rfl h
    · intro h
      simp [paddedRun] at h
  | c :: rest =>
    refine ⟨paddedGo_err_iff some none p rest c _ _, ?_, ?_⟩
    · intro _ hno
      rcases herr : (paddedRun some none (c :: rest) p).2 with _ | e
      · rfl
      · cases e with
        | shortChunk =>
          exact absurd ((paddedGo_err_iff some none p rest c _ _).mp herr) hno
        | emptyStream =>
          exact absurd herr (paddedGo_err_ne_empty some none p rest c _ _)
    · exact paddedGo_err_pairs some none p rest c _ _

/-- Witness for C5 at the stream `[[1],[2],[3]]`, `p = 2`: the first
chunk is a short non-final chunk, so the error fires before any pair is
yielded. -/
theorem claim_C5_witness :
    (paddedRun some none [[(1:ℚ)], [2], [3]] 2).2 = some PadError.shortChunk :=
  (claim_C5_padded_error [[(1:ℚ)], [2], [3]] 2).1.mpr
    ⟨0, by simp, by simp⟩

/-! ## C10: `padding = 0` -/

/-- Claim-side list for C10: with `padding = 0` each padded chunk is the
whole previous chunk (nothing, for the first chunk) followed by the
current chunk, with no NaN rows at all. -/
def zeroPadSpec : List ℚ → List ℚ → List (List ℚ) → List (List ℚ × List (Option ℚ))
  | prev, chunk, [] => [(chunk, (prev ++ chunk).map some)]
  | prev, chunk, next :: rest =>
      (chunk, (prev ++ chunk).map some) :: zeroPadSpec chunk next rest

theorem paddedGo_zero :
    ∀ (rest : List (List ℚ)) (chunk prev : List ℚ),
      paddedGo some none 0 (prev.map some) [] chunk rest =
        (zeroPadSpec prev chunk rest, none) := by
  intro rest
  induction rest with
  | nil =>
    intro chunk prev
    simp [paddedGo, zeroPadSpec]
  | cons next rest ih =>
    intro chunk prev
    rw [paddedGo, if_neg (by omega)]
    have hlast : pyLastRows chunk 0 = chunk := by simp [pyLastRows]
    simp only [Nat.zero_sub, List.take_zero, List.drop_zero, List.take_nil,
      List.drop_nil, hlast]
    rw [ih next chunk]
    simp [zeroPadSpec]

theorem zeroPadSpec_getD :
    ∀ (rest : List (List ℚ)) (chunk prev : List ℚ) (i : ℕ),
      i < (chunk :: rest).length →
      (zeroPadSpec prev chunk rest).getD i ([], []) =
        ((chunk :: rest).getD i [],
          (((prev :: chunk :: rest).getD i []) ++ (chunk :: rest).getD i []).map some) := by
  intro rest
  induction rest with
  | nil =>
    intro chunk prev i hi
    simp only [List.length_cons, List.length_nil] at hi
    match i, hi with
    | 0, _ => rfl
  | cons next rest ih =>
    intro chunk prev i hi
    match i with
    | 0 => rfl
    | j + 1 =>
      show (zeroPadSpec chunk next rest).getD j ([], []) = _
      rw [ih next chunk j (by simpa using hi)]
      rfl

/-- **C10.**  When `round(1000 / sampling_period /
high_pass_frequency_angles) <= 1` the derived `padding` is `0`; and
`padded(it, 0)` prepends no NaN rows: for every stream of at least two
chunks it runs without error and the padded variant of every chunk after
the first is the entire previous chunk concatenated with the current
chunk (because `chunk[-0:]` is the whole chunk), of length
`len(previous) + len(chunk)`. -/
theorem claim_C10_zero_padding :
    (∀ (sp : ℕ) (hpa : ℚ), pyRound (1000 / (sp:ℚ) / hpa) ≤ 1 → paddingOf sp hpa = 0) ∧
    (∀ (cs : List (List ℚ)), 2 ≤ cs.length →
      (paddedRun some none cs 0).2 = none ∧
      ∀ i, 1 ≤ i → i < cs.length →
        ((paddedRun some none cs 0).1.getD i ([], [])).2 =
          (cs.getD (i-1) [] ++ cs.getD i []).map some ∧
        ((paddedRun some none cs 0).1.getD i ([], [])).2.length =
          (cs.getD (i-1) []).length + (cs.getD i []).length) := by
  constructor
  · intro sp hpa h
    unfold paddingOf
    omega
  · intro cs hcs
    match cs with
    | c :: rest =>
      have hrun : paddedRun some none (c :: rest) 0 = (zeroPadSpec [] c rest, none) := by
        have h := paddedGo_zero rest c []
        simpa [paddedRun] using h
      refine ⟨by rw [hrun], ?_⟩
      intro i hi1 hilen
      rw [hrun]
      simp only
      rw [zeroPadSpec_getD rest c [] i (by simpa using hilen)]
      simp only
      match i, hi1 with
      | j + 1, _ =>
        constructor
        · rfl
        · simp

/-- Witness for C10: `sampling_period = 500`, `high_pass_frequency_angles
= 2` give `padding = 0`, and the two-chunk stream `[[1],[2]]` is padded
without error, the second padded chunk being `[some 1, some 2]`. -/
theorem claim_C10_witness :
    paddingOf 500 2 = 0 ∧ (paddedRun some none [[(1:ℚ)], [2]] 0).2 = none ∧
    ((paddedRun some none [[(1:ℚ)], [2]] 0).1.getD 1 ([], [])).2 =
      ([(1:ℚ)] ++ [2]).map some := by
  refine ⟨?_, ?_, ?_⟩
  · apply claim_C10_zero_padding.1 500 2
    have h : (1000 / ((500:ℕ):ℚ) / 2) = 1 := by norm_num
    rw [h]
    unfold pyRound
    norm_num
  · exact (claim_C10_zero_padding.2 [[(1:ℚ)], [2]] (by simp)).1
  · exact ((claim_C10_zero_padding.2 [[(1:ℚ)], [2]] (by simp)).2 1 (by omega)
      (by simp)).1

/-! ## Metric kernels (metrics.py lines 20–53)

Kernels operate on a windowed array `(windows, samples, 3)`, embedded as
`List (List (ℝ × ℝ × ℝ))`.  Floating point is idealised as `ℝ`; raw
acceleration values entering the kernels are finite. -/

/-- `.mean(axis)` of numpy over one axis: sum divided by count.
(For an empty list this is `0/0 = 0` in `ℝ`; the pipeline only takes
means of nonempty windows.) -/
noncomputable def npMean (l : List ℝ) : ℝ := l.sum / l.length

/-- One sample of `numpy.sqrt(numpy.sum(xyz ** 2, axis=2))`. -/
noncomputable def sampleNorm (v : ℝ × ℝ × ℝ) : ℝ :=
  Real.sqrt (v.1 ^ 2 + v.2.1 ^ 2 + v.2.2 ^ 2)

open Classical in
/-- `numpy.arctan2 y x`: the angle of the point `(x, y)`. -/
noncomputable def arctan2 (y x : ℝ) : ℝ :=
  if 0 < x then Real.arctan (y / x)
  else if x < 0 then
    (if 0 ≤ y then Real.arctan (y / x) + Real.pi else Real.arctan (y / x) - Real.pi)
  else if 0 < y then Real.pi / 2
  else if y < 0 then -(Real.pi / 2)
  else 0

/-- `en(xyz)` (metrics.py lines 51–53): `sqrt(sum(xyz**2, axis=2))`
(a `(windows, samples)` array), then `.mean(axis=1)`. -/
noncomputable def en (xyz : List (List (ℝ × ℝ × ℝ))) : List ℝ :=
  (xyz.map (fun win => win.map sampleNorm)).map npMean

/-- `enmo(xyz)` (metrics.py lines 45–48): the same norm array, then
`numpy.clip(en - 1, 0, None).mean(axis=1)`. -/
noncomputable def enmo (xyz : List (List (ℝ × ℝ × ℝ))) : List ℝ :=
  ((xyz.map (fun win => win.map sampleNorm)).map
    (fun win => win.map (fun e => max (e - 1) 0))).map npMean

/-- One sample of the `angles` array of `windowed_angles` (metrics.py
lines 33–39): `arctan2(xyz, sqrt(xyz[:,:,[1,2,0]]**2 + xyz[:,:,[2,0,1]]**2))
* 180 / pi`, componentwise. -/
noncomputable def sampleAngles (v : ℝ × ℝ × ℝ) : ℝ × ℝ × ℝ :=
  (arctan2 v.1 (Real.sqrt (v.2.1 ^ 2 + v.2.2 ^ 2)) * 180 / Real.pi,
   arctan2 v.2.1 (Real.sqrt (v.2.2 ^ 2 + v.1 ^ 2)) * 180 / Real.pi,
   arctan2 v.2.2 (Real.sqrt (v.1 ^ 2 + v.2.1 ^ 2)) * 180 / Real.pi)

/-- `windowed_angles(xyz)` (metrics.py lines 20–42): the `angles` array,
then `.mean(1).T` — per-window componentwise means, transposed into the
three series `anglex, angley, anglez`. -/
noncomputable def windowed_angles (xyz : List (List (ℝ × ℝ × ℝ))) :
    List ℝ × List ℝ × List ℝ :=
  let angles := xyz.map (fun win => win.map sampleAngles)
  let means := angles.map (fun win =>
    (npMean (win.map (fun a => a.1)), npMean (win.map (fun a => a.2.1)),
      npMean (win.map (fun a => a.2.2))))
  (means.map (fun m => m.1), means.map (fun m => m.2.1), means.map (fun m => m.2.2))

theorem npMean_replicate (k : ℕ) (c : ℝ) (hk : 0 < k) :
    npMean (List.replicate k c) = c := by
  unfold npMean
  rw [List.sum_replicate, List.length_replicate, nsmul_eq_mul]
  field_simp

/-- **C6.**  Each kernel is the per-window mean of its per-sample
formula: `en` the mean of `sqrt(ax²+ay²+az²)`, `enmo` the mean of
`max(sqrt(ax²+ay²+az²) − 1, 0)`, `windowed_angles` the per-axis mean of
`atan2(axis, sqrt(sum of squares of the other two axes)) * 180/π`.
Consequently an all-zero window of `k > 0` samples yields `en = 0` and
`enmo = 0` (no division error is possible — the norm is total), and a
constant `(1,0,0)` window yields `anglex = 90`, `angley = anglez = 0`. -/
theorem claim_C6_metric_kernels (k : ℕ) (hk : 0 < k) :
    (∀ xyz : List (List (ℝ × ℝ × ℝ)),
      en xyz = xyz.map (fun win => npMean (win.map (fun v =>
        Real.sqrt (v.1 ^ 2 + v.2.1 ^ 2 + v.2.2 ^ 2)))) ∧
      enmo xyz = xyz.map (fun win => npMean (win.map (fun v =>
        max (Real.sqrt (v.1 ^ 2 + v.2.1 ^ 2 + v.2.2 ^ 2) - 1) 0))) ∧
      windowed_angles xyz =
        (xyz.map (fun win => npMean (win.map (fun v =>
          arctan2 v.1 (Real.sqrt (v.2.1 ^ 2 + v.2.2 ^ 2)) * 180 / Real.pi))),
         xyz.map (fun win => npMean (win.map (fun v =>
          arctan2 v.2.1 (Real.sqrt (v.2.2 ^ 2 + v.1 ^ 2)) * 180 / Real.pi))),
         xyz.map (fun win => npMean (win.map (fun v =>
          arctan2 v.2.2 (Real.sqrt (v.1 ^ 2 + v.2.1 ^ 2)) * 180 / Real.pi))))) ∧
    en [List.replicate k ((0:ℝ), 0, 0)] = [0] ∧
    enmo [List.replicate k ((0:ℝ), 0, 0)] = [0] ∧
    windowed_angles [List.replicate k ((1:ℝ), 0, 0)] = ([90], [0], [0]) := by
  have hnorm0 : sampleNorm ((0:ℝ), 0, 0) = 0 := by
    unfold sampleNorm
    rw [show ((0:ℝ) ^ 2 + 0 ^ 2 + 0 ^ 2) = 0 by ring, Real.sqrt_zero]
  refine ⟨?_, ?_, ?_, ?_⟩
  · intro xyz
    refine ⟨?_, ?_, ?_⟩
    · unfold en
      simp only [List.map_map]
      rfl
    · unfold enmo
      simp only [List.map_map, Function.comp_def]
      rfl
    · unfold windowed_angles
      simp only [List.map_map, Function.comp_def]
      rfl
  · unfold en
    rw [List.map_cons, List.map_nil, List.map_replicate, hnorm0,
      List.map_cons, List.map_nil, npMean_replicate k 0 hk]
  · unfold enmo
    rw [List.map_cons, List.map_nil, List.map_replicate, hnorm0,
      List.map_cons, List.map_nil, List.map_replicate,
      show max ((0:ℝ) - 1) 0 = 0 by simp,
      List.map_cons, List.map_nil, npMean_replicate k 0 hk]
  · have hx : sampleAngles ((1:ℝ), 0, 0) = (90, 0, 0) := by
      have h0 : Real.sqrt ((0:ℝ) ^ 2 + 0 ^ 2) = 0 := by
        rw [show ((0:ℝ) ^ 2 + 0 ^ 2) = 0 by ring, Real.sqrt_zero]
      have h1 : Real.sqrt ((0:ℝ) ^ 2 + 1 ^ 2) = 1 := by
        rw [show ((0:ℝ) ^ 2 + 1 ^ 2) = 1 by ring, Real.sqrt_one]
      have h2 : Real.sqrt ((1:ℝ) ^ 2 + 0 ^ 2) = 1 := by
        rw [show ((1:ℝ) ^ 2 + 0 ^ 2) = 1 by ring, Real.sqrt_one]
      have ha1 : arctan2 1 0 = Real.pi / 2 := by
        unfold arctan2
        rw [if_neg (by norm_num), if_neg (by norm_num), if_pos (by norm_num)]
      have ha2 : arctan2 0 1 = 0 := by
        unfold arctan2
        rw [if_pos (by norm_num)]
        simp
      unfold sampleAngles
      rw [h0, h1, h2, ha1, ha2]
      have hpi : Real.pi ≠ 0 := Real.pi_ne_zero
      have e1 : Real.pi / 2 * 180 / Real.pi = 90 := by
        field_simp
        ring
      have e2 : (0:ℝ) * 180 / Real.pi = 0 := by
        rw [zero_mul, zero_div]
      rw [e1, e2]
    unfold windowed_angles
    simp only [List.map_cons, List.map_nil, List.map_replicate, hx]
    simp only [npMean_replicate _ _ hk]

/-- Witness for C6 at `k = 2`. -/
theorem claim_C6_witness :
    0 < 2 ∧ en [List.replicate 2 ((0:ℝ), 0, 0)] = [0] :=
  ⟨by decide, (claim_C6_metric_kernels 2 (by decide)).2.1⟩

/-! ## `fill_head_and_tail_nan` (processing.py lines 11–21)

The function receives the trimmed rolling-median array: rows of three
possibly-NaN cells (`accx, accy, accz`).  `numpy.where(~numpy.isnan(x[:, 0]))[0]`
inspects only the first column; `x[:idx[0]] = x[idx[0]]` and
`x[idx[-1]:] = x[idx[-1]]` overwrite whole rows. -/

/-- A row of a possibly-NaN 3-column array. -/
abbrev OV3 : Type := Option ℝ × Option ℝ × Option ℝ

/-- The all-NaN row. -/
def nanRow3 : OV3 := (none, none, none)

/-- `fill_head_and_tail_nan(x)`: `none` models the
`assert len(idx) > 0, "All values were nan"` failure.  `i0 = idx[0]` is
the first index whose column-0 cell is finite, `i1 = idx[-1]` the last;
rows before `i0` are replaced by row `i0`, rows from `i1` on by row
`i1`. -/
def fill_head_and_tail_nan (x : List OV3) : Option (List OV3) :=
  let i0 := x.findIdx (fun r => r.1.isSome)
  if i0 = x.length then none
  else
    let i1 := x.length - 1 - x.reverse.findIdx (fun r => r.1.isSome)
    some ((List.range x.length).map (fun j =>
      if j < i0 then x.getD i0 nanRow3
      else if i1 ≤ j then x.getD i1 nanRow3
      else x.getD j nanRow3))

theorem findIdx_eq_of {α : Type} (P : α → Bool) :
    ∀ (l : List α) (a : ℕ) (ha : a < l.length),
      (∀ i, (hi : i < l.length) → i < a → P l[i] = false) →
      P l[a] = true → l.findIdx P = a := by
  intro l
  induction l with
  | nil => intro a ha; simp at ha
  | cons x t ih =>
    intro a ha hbefore hat
    match a with
    | 0 =>
      rw [List.findIdx_cons]
      have : P x = true := hat
      rw [this]
      rfl
    | b + 1 =>
      rw [List.findIdx_cons]
      have hx : P x = false := hbefore 0 (by simp) (by omega)
      rw [hx]
      simp only [cond_false]
      have := ih b (by simpa using ha)
        (fun i hi hib => hbefore (i + 1) (by simpa using hi) (by omega))
        (by simpa using hat)
      omega

/-- Full description of a successful `fill_head_and_tail_nan`: if `a` is
the first index with a finite first cell and `b` the last, the result
replaces rows before `a` with row `a`, rows from `b` on with row `b`,
and keeps every other row. -/
theorem fill_spec (x : List OV3) (a b : ℕ) (ha : a < x.length) (hb : b < x.length)
    (hab : a ≤ b)
    (hfirst : ∀ i, (hi : i < x.length) → i < a → (x[i]).1.isSome = false)
    (hasome : (x[a]).1.isSome = true)
    (hlast : ∀ i, (hi : i < x.length) → b < i → (x[i]).1.isSome = false)
    (hbsome : (x[b]).1.isSome = true) :
    fill_head_and_tail_nan x =
      some ((List.range x.length).map (fun j =>
        if j < a then x.getD a nanRow3
        else if b ≤ j then x.getD b nanRow3
        else x.getD j nanRow3)) := by
  have hi0 : x.findIdx (fun r => r.1.isSome) = a :=
    findIdx_eq_of _ x a ha (fun i hi hia => hfirst i hi hia) hasome
  have hi1 : x.reverse.findIdx (fun r => r.1.isSome) = x.length - 1 - b := by
    apply findIdx_eq_of _ x.reverse (x.length - 1 - b)
      (by rw [List.length_reverse]; omega)
    · intro i hi hib
      rw [List.length_reverse] at hi
      rw [List.getElem_reverse]
      exact hlast _ (by omega) (by omega)
    · rw [List.getElem_reverse]
      have he : x.length - 1 - (x.length - 1 - b) = b := by omega
      simp only [he]
      exact hbsome
  unfold fill_head_and_tail_nan
  rw [hi0, if_neg (by omega), hi1]
  have hb1 : x.length - 1 - (x.length - 1 - b) = b := by omega
  rw [hb1]

/-- **C8, counterexample.**  The claim says the function "fails with an
all-values-were-NaN error if and only if the chunk contains no finite
sample".  The one-row chunk `[(5, NaN, NaN)]` contains no finite sample
(its only row has NaN cells), yet the function succeeds, because the
code inspects only column 0 (`numpy.isnan(x[:, 0])`). -/
theorem claim_C8_counterexample :
    fill_head_and_tail_nan ([(some 5, none, none)] : List OV3) =
      some ([(some 5, none, none)] : List OV3) ∧
    ¬ ∃ r ∈ ([(some 5, none, none)] : List OV3),
        r.1.isSome = true ∧ r.2.1.isSome = true ∧ r.2.2.isSome = true := by
  constructor
  · rfl
  · rintro ⟨r, hr, -, h2, -⟩
    simp at hr
    rw [hr] at h2
    simp at h2

/-- **C8, amended.**  `fill_head_and_tail_nan` classifies a row by its
first column only: it fails with the all-values-were-NaN error iff every
row's first cell is NaN; otherwise, with `a` the first and `b` the last
index whose first cell is finite, it replaces every row before `a` with
a copy of row `a` and every row from `b` on with a copy of row `b`,
leaving all other rows (including interior NaN rows) unchanged — in
particular `[nan, nan, 5, 6, 4, nan]` becomes `[5, 5, 5, 6, 4, 4]`. -/
theorem claim_C8_amended :
    (∀ x : List OV3, fill_head_and_tail_nan x = none ↔ ∀ r ∈ x, r.1 = none) ∧
    (∀ (x : List OV3) (a b : ℕ) (ha : a < x.length) (hb : b < x.length), a ≤ b →
      (∀ i, (hi : i < x.length) → i < a → (x[i]).1 = none) →
      (x[a]).1.isSome = true →
      (∀ i, (hi : i < x.length) → b < i → (x[i]).1 = none) →
      (x[b]).1.isSome = true →
      fill_head_and_tail_nan x =
        some ((List.range x.length).map (fun j =>
          if j < a then x.getD a nanRow3
          else if b ≤ j then x.getD b nanRow3
          else x.getD j nanRow3))) ∧
    fill_head_and_tail_nan
        [nanRow3, nanRow3, (some 5, some 5, some 5), (some 6, some 6, some 6),
          (some 4, some 4, some 4), nanRow3] =
      some [(some 5, some 5, some 5), (some 5, some 5, some 5),
        (some 5, some 5, some 5), (some 6, some 6, some 6),
        (some 4, some 4, some 4), (some 4, some 4, some 4)] := by
  refine ⟨?_, ?_, ?_⟩
  · intro x
    unfold fill_head_and_tail_nan
    by_cases hidx : x.findIdx (fun r => r.1.isSome) = x.length
    · rw [if_pos hidx]
      constructor
      · intro _ r hr
        have := List.findIdx_eq_length.mp hidx r hr
        simpa using this
      · intro _
        rfl
    · rw [if_neg hidx]
      constructor
      · intro h
        exact absurd h (by simp)
      · intro hall
        exact absurd (List.findIdx_eq_length.mpr (fun r hr => by simp [hall r hr])) hidx
  · intro x a b ha hb hab hfirst hasome hlast hbsome
    exact fill_spec x a b ha hb hab
      (fun i hi hia => by simp [hfirst i hi hia]) hasome
      (fun i hi hbi => by simp [hlast i hi hbi]) hbsome
  · rfl

/-- Witness for C8 (amended) at the example input: applies the amended
theorem at `a = 2`, `b = 4`. -/
theorem claim_C8_witness :
    fill_head_and_tail_nan
        [nanRow3, nanRow3, ((some 5 : Option ℝ), some 5, some 5), nanRow3] =
      some ((List.range 4).map (fun j =>
        if j < 2 then ((some 5 : Option ℝ), some 5, some 5)
        else if 2 ≤ j then ((some 5 : Option ℝ), some 5, some 5)
        else nanRow3)) := by
  have h := claim_C8_amended.2.1
    [nanRow3, nanRow3, ((some 5 : Option ℝ), some 5, some 5), nanRow3] 2 2
    (by decide) (by decide) (by decide)
    (by
      intro i hi hia
      match i, hia with
      | 0, _ => rfl
      | 1, _ => rfl)
    (by rfl)
    (by
      intro i hi hbi
      match i, hi, hbi with
      | 3, _, _ => rfl)
    (by rfl)
  exact h

/-! ## C9: in-place mutation, modelled with an explicit heap

`fill_head_and_tail_nan` assigns into slices of its argument
(`x[:idx[0]] = ...`) and returns that same array object.  numpy array
aliasing is embedded as a heap: a list of arrays addressed by index.
The call site (processing.py line 162) passes
`xyz_rolling_median.copy()`, a fresh address holding a copy. -/

/-- Calling `fill_head_and_tail_nan` on the array at address `r`:
the array at `r` is overwritten with the repaired rows, and the address
returned is `r` itself (the function returns its argument). -/
def fillInPlace (heap : List (List OV3)) (r : ℕ) :
    Option (List (List OV3) × ℕ) :=
  (fill_head_and_tail_nan (heap.getD r [])).map (fun y => (heap.set r y, r))

/-- The call `fill_head_and_tail_nan(a.copy())` for the array at address
`r`: a fresh address holding a copy is appended and repaired instead. -/
def fillOnCopy (heap : List (List OV3)) (r : ℕ) :
    Option (List (List OV3) × ℕ) :=
  fillInPlace (heap ++ [heap.getD r []]) heap.length

/-- **C9.**  `fill_head_and_tail_nan` repairs in place: it returns the
very address it was given, the array at that address is overwritten with
the repaired rows, every other address is untouched — and the
`get_metrics` call site protects its rolling-median array by passing a
copy: filling the copy leaves the array at the original address
unchanged. -/
theorem claim_C9_fill_in_place (heap : List (List OV3)) (r : ℕ) (y : List OV3)
    (hr : r < heap.length)
    (hy : fill_head_and_tail_nan (heap.getD r []) = some y) :
    fillInPlace heap r = some (heap.set r y, r) ∧
    (heap.set r y).getD r [] = y ∧
    (∀ q, q ≠ r → (heap.set r y).getD q [] = heap.getD q []) ∧
    (∀ heap2 ref2, fillOnCopy heap r = some (heap2, ref2) →
      ref2 = heap.length ∧ heap2.getD r [] = heap.getD r []) := by
  refine ⟨?_, ?_, ?_, ?_⟩
  · unfold fillInPlace
    rw [hy]
    rfl
  · rw [List.getD_eq_getElem _ _ (by rw [List.length_set]; omega)]
    rw [List.getElem_set_self]
  · intro q hq
    by_cases hql : q < heap.length
    · rw [List.getD_eq_getElem _ _ (by rw [List.length_set]; omega),
        List.getD_eq_getElem _ _ hql]
      exact List.getElem_set_ne (by omega) _
    · rw [List.getD_eq_default _ _ (by rw [List.length_set]; omega),
        List.getD_eq_default _ _ (by omega)]
  · intro heap2 ref2 h
    unfold fillOnCopy fillInPlace at h
    have hcopy : (heap ++ [heap.getD r []]).getD heap.length [] = heap.getD r [] := by
      rw [List.getD_eq_getElem _ _ (by simp)]
      rw [List.getElem_append_right (Nat.le_refl _)]
      simp
    rw [hcopy, hy] at h
    rw [Option.map_some'] at h
    have hp : ((heap ++ [heap.getD r []]).set heap.length y, heap.length) =
        (heap2, ref2) := Option.some.inj h
    have h1 : (heap ++ [heap.getD r []]).set heap.length y = heap2 :=
      congrArg Prod.fst hp
    have h2 : heap.length = ref2 := congrArg Prod.snd hp
    refine ⟨h2.symm, ?_⟩
    rw [← h1]
    set c := heap.getD r [] with hc
    have hlen : r < ((heap ++ [c]).set heap.length y).length := by
      rw [List.length_set, List.length_append]
      simp only [List.length_cons, List.length_nil]
      omega
    rw [List.getD_eq_getElem _ _ hlen]
    rw [List.getElem_set_ne (by omega) _]
    rw [List.getElem_append_left hr]
    rw [hc, List.getD_eq_getElem _ _ hr]

/-- Witness for C9: a two-array heap; filling the array at address 0
leaves address 1 untouched, and filling a copy leaves address 0 as it
was. -/
theorem claim_C9_witness :
    fillInPlace [[(some 1, none, none), nanRow3], [nanRow3]] 0 =
      some ([[( (some 1 : Option ℝ), none, none), ((some 1 : Option ℝ), none, none)],
        [nanRow3]], 0) := by
  have h := (claim_C9_fill_in_place
    [[((some 1 : Option ℝ), none, none), nanRow3], [nanRow3]] 0
    [((some 1 : Option ℝ), none, none), ((some 1 : Option ℝ), none, none)]
    (by decide) (by rfl)).1
  exact h

/-! ## The `get_metrics` pipeline (processing.py lines 87–192)

The reader is abstracted by its outputs: the detected `sampling_period`
and the CSV data rows; `reader.batched(filename, batch_size=rows_in_batch)`
is the split of the rows into consecutive `rows_in_batch`-row chunks
(`pandas.read_csv(chunksize=...)`: equal chunks, final one possibly
shorter, none empty).  A data row carries the datetime and the three
finite acceleration values. -/

/-- A raw CSV row: `(datetime, (accx, accy, accz))`. -/
abbrev DRow : Type := ℚ × (ℝ × ℝ × ℝ)

/-- Injection of a CSV row into a NaN-able padded-chunk row (the padded
chunk's datetime column is never read downstream, so only the three
acceleration cells are carried). -/
def injRow (r : DRow) : OV3 := (some r.2.1, some r.2.2.1, some r.2.2.2)

open Classical in
/-- Insertion into a sorted list of reals (helper for the median). -/
noncomputable def insertSorted (a : ℝ) : List ℝ → List ℝ
  | [] => [a]
  | b :: t => if a ≤ b then a :: b :: t else b :: insertSorted a t

/-- Sorting a list of reals (helper for the median). -/
noncomputable def sortR (l : List ℝ) : List ℝ := l.foldr insertSorted []

/-- The median of an odd-size window as pandas computes it: the middle
element of the sorted values. -/
noncomputable def medR (l : List ℝ) : ℝ := (sortR l).getD (l.length / 2) 0

open Classical in
/-- One cell of the centered rolling median of width `2*p + 1` over one
column: the median of the window `[i-p, i+p]` when it lies inside the
column and holds no NaN, else NaN (pandas `rolling(M, center=True)` with
the default `min_periods = M`). -/
noncomputable def rollAt (p : ℕ) (col : List (Option ℝ)) (i : ℕ) : Option ℝ :=
  if p ≤ i ∧ i + p < col.length then
    let win := (col.drop (i - p)).take (2 * p + 1)
    if win.all Option.isSome then some (medR win.reduceOption) else none
  else none

/-- The centered rolling median of one column. -/
noncomputable def rollCol (p : ℕ) (col : List (Option ℝ)) : List (Option ℝ) :=
  (List.range col.length).map (rollAt p col)

/-- `padded_chunk[['accx','accy','accz']].rolling(median_window_size,
center=True).median().values` (processing.py lines 158–159): per-column
rolling medians, reassembled into rows. -/
noncomputable def roll3 (p : ℕ) (l : List OV3) : List OV3 :=
  (rollCol p (l.map (fun r => r.1))).zip
    ((rollCol p (l.map (fun r => r.2.1))).zip (rollCol p (l.map (fun r => r.2.2))))

/-- `x[nan_area:-nan_area]` (line 161): for `nan_area = 0` this is
`x[0:-0] = x[0:0]`, the empty array; otherwise it drops `nan_area` rows
from each end. -/
def pyTrim (p : ℕ) (l : List α) : List α :=
  if p = 0 then [] else (l.drop p).take (l.length - 2 * p)

/-- `values[::k]` — every `k`-th element, starting at index 0. -/
def everyNth (k : ℕ) : List α → List α
  | [] => []
  | x :: xs => x :: everyNth k (xs.drop (k - 1))
  termination_by l => l.length
  decreasing_by
    simp only [List.length_drop, List.length_cons]
    omega

/-- Reading the repaired rolling-median rows as plain values for the
angle kernel.  In every run below the repaired rows are fully finite
(the default 0 is never read), and the equality theorems never depend on
the default. -/
def devalue (r : OV3) : ℝ × ℝ × ℝ := (r.1.getD 0, r.2.1.getD 0, r.2.2.getD 0)

/-- One row of the output table (`dict(zip(dataframe.keys(), x))`):
a metric column that was not requested is `none`. -/
structure OutRow where
  datetime : ℚ
  anglex : Option ℝ
  angley : Option ℝ
  anglez : Option ℝ
  en : Option ℝ
  enmo : Option ℝ

/-- The per-chunk column dictionary built by the loop body
(lines 148–182). -/
structure Cols where
  dt : List ℚ
  ang : Option (List ℝ × List ℝ × List ℝ)
  en : Option (List ℝ)
  enmo : Option (List ℝ)

/-- `zip(*dataframe.values())` (lines 185–188): one output row per
index, truncating to the shortest present column. -/
def mkRows (c : Cols) : List OutRow :=
  let n := [c.ang.map (fun a => min a.1.length (min a.2.1.length a.2.2.length)),
      c.en.map List.length, c.enmo.map List.length].reduceOption.foldr min c.dt.length
  (List.range n).map (fun i =>
    { datetime := c.dt.getD i 0,
      anglex := c.ang.map (fun a => a.1.getD i 0),
      angley := c.ang.map (fun a => a.2.1.getD i 0),
      anglez := c.ang.map (fun a => a.2.2.getD i 0),
      en := c.en.map (fun e => e.getD i 0),
      enmo := c.enmo.map (fun e => e.getD i 0) })

/-- The body of the `for chunk, padded_chunk in padded(...)` loop for
one pair (lines 142–188), producing this chunk's table rows; `none` is
the `fill_head_and_tail_nan` assertion failure. -/
noncomputable def blockRows (ws sp p : ℕ) (metrics : List String)
    (chunk : List DRow) (pchunk : List OV3) : Option (List OutRow) :=
  let xyzW := separate_time_windows (chunk.map (fun r => r.2)) ws sp
  let dt := everyNth (samplesPerWindow ws sp) (chunk.map (fun r => r.1))
  let enCol := if "en" ∈ metrics then some (en xyzW) else none
  let enmoCol := if "enmo" ∈ metrics then some (enmo xyzW) else none
  if "angles" ∈ metrics then
    match fill_head_and_tail_nan (pyTrim p (roll3 p pchunk)) with
    | none => none
    | some filled =>
      some (mkRows ⟨dt,
        some (windowed_angles (separate_time_windows (filled.map devalue) ws sp)),
        enCol, enmoCol⟩)
  else some (mkRows ⟨dt, none, enCol, enmoCol⟩)

/-- The main loop of `get_metrics`: consumes the `(chunk, padded_chunk)`
pairs, breaking as soon as a chunk is too short to fill one window
(`sampling_period * len(chunk) < window_size * 1000`, line 138), and
concatenates the per-chunk rows.  `none` is a crash: either a `padded`
error reached by pulling past the last emitted pair, or the fill
assertion inside a block. -/
noncomputable def metricsLoop (ws sp p : ℕ) (metrics : List String) :
    List (List DRow × List OV3) → Option PadError → Option (List OutRow)
  | [], some _ => none
  | [], none => some []
  | (chunk, pchunk) :: rest, err =>
    if sp * chunk.length < ws * 1000 then some []
    else
      match blockRows ws sp p metrics chunk pchunk,
          metricsLoop ws sp p metrics rest err with
      | some rows, some restRows => some (rows ++ restRows)
      | _, _ => none

/-- `get_metrics` from the chunk stream on: validates the metric names
(line 111, fail fast), derives the padding (lines 125–127), runs
`padded` and drives the loop. -/
noncomputable def runPipeline (ws sp : ℕ) (metrics : List String) (hpa : ℚ)
    (cs : List (List DRow)) : Option (List OutRow) :=
  if metrics.all (fun m => m == "angles" || m == "enmo" || m == "en") then
    let p := paddingOf sp hpa
    let r := paddedRun injRow nanRow3 cs p
    metricsLoop ws sp p metrics r.1 r.2
  else none

/-- `pandas.read_csv(chunksize=n)`: consecutive chunks of `n` rows, the
final chunk possibly shorter, no empty chunks. -/
def chunkSplit : List α → ℕ → List (List α)
  | [], _ => []
  | _ :: _, 0 => []
  | x :: xs, n + 1 =>
      (x :: xs).take (n + 1) :: chunkSplit ((x :: xs).drop (n + 1)) (n + 1)
  termination_by l _ => l.length
  decreasing_by
    simp only [List.length_drop, List.length_cons]
    omega

/-- `get_metrics(filename, window_size, batch_size, metrics,
high_pass_frequency_angles)`, with the reader abstracted by the detected
`sampling_period` and the data rows. -/
noncomputable def getMetrics (data : List DRow) (ws bs sp : ℕ)
    (metrics : List String) (hpa : ℚ) : Option (List OutRow) :=
  runPipeline ws sp metrics hpa (chunkSplit data (rowsInBatch ws bs sp))

/-! ## Helper lemmas for the chunk-invariance proof -/

theorem slice_split (l : List α) (s n1 n2 : ℕ) :
    (l.drop s).take (n1 + n2) = (l.drop s).take n1 ++ (l.drop (s + n1)).take n2 := by
  rw [List.take_add]
  congr 1
  rw [List.drop_drop]

theorem everyNth_len (k : ℕ) (hk : 1 ≤ k) :
    ∀ (n : ℕ) (l : List α), l.length ≤ n →
      (everyNth k l).length = (l.length + k - 1) / k := by
  have h0 : everyNth k ([] : List α) = [] := by rw [everyNth]
  intro n
  induction n with
  | zero =>
    intro l hl
    match l, hl with
    | [], _ =>
      rw [h0]
      simp only [List.length_nil]
      rw [Nat.div_eq_of_lt (by omega)]
  | succ n ih =>
    intro l hl
    match l with
    | [] =>
      rw [h0]
      simp only [List.length_nil]
      rw [Nat.div_eq_of_lt (by omega)]
    | x :: xs =>
      simp only [List.length_cons] at hl
      rw [everyNth]
      simp only [List.length_cons]
      rw [ih (xs.drop (k - 1)) (by simp only [List.length_drop]; omega)]
      rw [List.length_drop]
      have h1 : xs.length + 1 + k - 1 = xs.length + k := by omega
      rw [h1, Nat.add_div_right _ (by omega)]
      by_cases hx : k - 1 ≤ xs.length
      · have h2 : xs.length - (k - 1) + k - 1 = xs.length := by omega
        rw [h2]
      · have h2 : xs.length - (k - 1) = 0 := by omega
        rw [h2]
        rw [Nat.div_eq_of_lt (by omega), Nat.div_eq_of_lt (by omega)]

theorem everyNth_append (k : ℕ) (hk : 1 ≤ k) :
    ∀ (n : ℕ) (A B : List α), A.length ≤ n → k ∣ A.length →
      everyNth k (A ++ B) = everyNth k A ++ everyNth k B := by
  have h0 : everyNth k ([] : List α) = [] := by rw [everyNth]
  intro n
  induction n with
  | zero =>
    intro A B hA _
    match A, hA with
    | [], _ => simp [h0]
  | succ n ih =>
    intro A B hA hdvd
    match A with
    | [] => simp [h0]
    | x :: xs =>
      simp only [List.length_cons] at hA
      have hxk : k - 1 ≤ xs.length := by
        rcases hdvd with ⟨c, hc⟩
        simp only [List.length_cons] at hc
        rcases c with _ | c
        · omega
        · have : k ≤ k * (c + 1) := Nat.le_mul_of_pos_right k (by omega)
          omega
      rw [List.cons_append, everyNth, everyNth]
      rw [List.drop_append_of_le_length hxk]
      rw [ih (xs.drop (k - 1)) B (by simp only [List.length_drop]; omega) ?hd]
      case hd =>
        rw [List.length_drop]
        rcases hdvd with ⟨c, hc⟩
        simp only [List.length_cons] at hc
        match c with
        | 0 => omega
        | c + 1 =>
          refine ⟨c, ?_⟩
          have hkc : k * (c + 1) = k * c + k := by ring
          omega
      rw [List.cons_append]

theorem stw_window (ws sp : ℕ) (l : List α) (i : ℕ)
    (hi : i < l.length / (ws * 1000 / sp)) :
    ((l.take ((ws * 1000 / sp) * (l.length / (ws * 1000 / sp)))).drop
        (i * (ws * 1000 / sp))).take (ws * 1000 / sp) =
      (l.drop (i * (ws * 1000 / sp))).take (ws * 1000 / sp) := by
  set W := ws * 1000 / sp
  rw [List.drop_take]
  rw [List.take_take]
  congr 1
  have h2 : (i + 1) * W ≤ (l.length / W) * W := Nat.mul_le_mul_right W hi
  have hsucc : (i + 1) * W = i * W + W := by ring
  have h4 : W * (l.length / W) = (l.length / W) * W := Nat.mul_comm _ _
  omega

theorem stw_eq (ws sp : ℕ) (l : List α) :
    separate_time_windows l ws sp =
      (List.range (l.length / (ws * 1000 / sp))).map
        (fun i => (l.drop (i * (ws * 1000 / sp))).take (ws * 1000 / sp)) := by
  unfold separate_time_windows
  apply List.map_congr_left
  intro i hi
  rw [List.mem_range] at hi
  exact stw_window ws sp l i hi

theorem stw_append (ws sp : ℕ) (hW : 1 ≤ ws * 1000 / sp) (A B : List α)
    (hdvd : (ws * 1000 / sp) ∣ A.length) :
    separate_time_windows (A ++ B) ws sp =
      separate_time_windows A ws sp ++ separate_time_windows B ws sp := by
  obtain ⟨q, hq⟩ := hdvd
  rw [stw_eq, stw_eq, stw_eq]
  have hlen : (A ++ B).length / (ws * 1000 / sp) = q + B.length / (ws * 1000 / sp) := by
    rw [List.length_append, hq, Nat.mul_add_div (by omega)]
  have hAlen : A.length / (ws * 1000 / sp) = q := by
    rw [hq, Nat.mul_div_cancel_left _ (by omega : 0 < ws * 1000 / sp)]
  rw [hlen, hAlen, List.range_add, List.map_append, List.map_map]
  congr 1
  · apply List.map_congr_left
    intro i hi
    rw [List.mem_range] at hi
    have hsucc : (i + 1) * (ws * 1000 / sp) =
        i * (ws * 1000 / sp) + (ws * 1000 / sp) := by ring
    have hle : (i + 1) * (ws * 1000 / sp) ≤ q * (ws * 1000 / sp) :=
      Nat.mul_le_mul_right _ (by omega)
    have hcomm : (ws * 1000 / sp) * q = q * (ws * 1000 / sp) := Nat.mul_comm _ _
    have hiW : i * (ws * 1000 / sp) + (ws * 1000 / sp) ≤ A.length := by omega
    rw [List.drop_append_of_le_length (by omega)]
    rw [List.take_append_of_le_length]
    rw [List.length_drop]
    omega
  · apply List.map_congr_left
    intro j hj
    simp only [Function.comp_apply]
    have hqj : (q + j) * (ws * 1000 / sp) = A.length + j * (ws * 1000 / sp) := by
      rw [hq]
      ring
    rw [hqj, List.drop_append]

theorem chunkSplit_nil (n : ℕ) : chunkSplit ([] : List α) n = [] := by
  cases n <;> rw [chunkSplit]

theorem chunkSplit_join (n : ℕ) (hn : 1 ≤ n) :
    ∀ (fuel : ℕ) (l : List α), l.length ≤ fuel → (chunkSplit l n).flatten = l := by
  intro fuel
  induction fuel with
  | zero =>
    intro l hl
    match l, hl with
    | [], _ => rw [chunkSplit_nil]; rfl
  | succ fuel ih =>
    intro l hl
    match l, hn with
    | [], _ => rw [chunkSplit_nil]; rfl
    | x :: xs, _ =>
      simp only [List.length_cons] at hl
      match n, hn with
      | m + 1, _ =>
        rw [chunkSplit]
        rw [List.flatten_cons]
        rw [ih ((x :: xs).drop (m + 1))
          (by simp only [List.length_drop, List.length_cons]; omega)]
        exact List.take_append_drop _ _

theorem chunkSplit_lengths (n : ℕ) (hn : 1 ≤ n) :
    ∀ (fuel : ℕ) (l : List α), l.length ≤ fuel → l ≠ [] →
      ∀ c ∈ chunkSplit l n,
        c.length = n ∨ (c.length = l.length % n ∧ 0 < l.length % n) := by
  intro fuel
  induction fuel with
  | zero =>
    intro l hl hne
    match l, hl with
    | [], _ => exact absurd rfl hne
  | succ fuel ih =>
    intro l hl hne c hc
    match l, hne with
    | x :: xs, _ =>
      simp only [List.length_cons] at hl
      match n, hn with
      | m + 1, _ =>
        rw [chunkSplit] at hc
        rcases List.mem_cons.mp hc with h | h
        · subst h
          by_cases hlen : m + 1 ≤ (x :: xs).length
          · left
            rw [List.length_take]
            omega
          · right
            simp only [List.length_cons] at hlen
            rw [List.length_take]
            constructor
            · rw [Nat.mod_eq_of_lt (by simp only [List.length_cons]; omega)]
              simp only [List.length_cons]
              omega
            · rw [Nat.mod_eq_of_lt (by simp only [List.length_cons]; omega)]
              simp
        · have hne2 : (x :: xs).drop (m + 1) ≠ [] := by
            intro habs
            rw [habs, chunkSplit_nil] at h
            simp at h
          have := ih ((x :: xs).drop (m + 1))
            (by simp only [List.length_drop, List.length_cons]; omega) hne2 c h
          rcases this with h2 | ⟨h2, h3⟩
          · left; exact h2
          · right
            rw [List.length_drop] at h2 h3
            have hlen : m + 1 ≤ (x :: xs).length := by
              by_contra habs
              have : (x :: xs).length - (m + 1) = 0 := by omega
              rw [this] at h3
              simp at h3
            constructor
            · rw [h2]
              conv_rhs => rw [show (x :: xs).length =
                ((x :: xs).length - (m + 1)) + 1 * (m + 1) by omega]
              rw [Nat.add_mul_mod_self_right]
            · conv_rhs => rw [show (x :: xs).length =
                ((x :: xs).length - (m + 1)) + 1 * (m + 1) by omega]
              rw [Nat.add_mul_mod_self_right]
              exact h3

theorem chunkSplit_ne_nil (l : List α) (n : ℕ) (hn : 1 ≤ n) (hl : l ≠ []) :
    chunkSplit l n ≠ [] := by
  match l, hl with
  | x :: xs, _ =>
    match n, hn with
    | m + 1, _ =>
      rw [chunkSplit]
      simp

/-- With `sampling_period ∣ window_size * 1000`, `rows_in_batch` is
`batch_size * samples_per_window`. -/
theorem rowsInBatch_mul (ws bs sp : ℕ) (h : sp ∣ ws * 1000) :
    rowsInBatch ws bs sp = bs * samplesPerWindow ws sp := by
  unfold rowsInBatch samplesPerWindow
  rw [show ws * bs * 1000 = bs * (ws * 1000) by ring]
  exact Nat.mul_div_assoc bs h

/-! ### Localising the rolling median, trim and fill -/

theorem rollCol_length (p : ℕ) (col : List (Option ℝ)) :
    (rollCol p col).length = col.length := by
  simp [rollCol]

theorem rollCol_getElem (p : ℕ) (col : List (Option ℝ)) (i : ℕ)
    (hi : i < (rollCol p col).length) : (rollCol p col)[i] = rollAt p col i := by
  simp [rollCol]

theorem rollAt_slice (p : ℕ) (col : List (Option ℝ)) (s m i : ℕ)
    (h1 : p ≤ i) (h2 : i + p < m) (h3 : s + m ≤ col.length) :
    rollAt p ((col.drop s).take m) i = rollAt p col (s + i) := by
  have hlen : ((col.drop s).take m).length = m := by
    rw [List.length_take, List.length_drop]
    omega
  have hwin : (((col.drop s).take m).drop (i - p)).take (2 * p + 1) =
      (col.drop (s + (i - p))).take (2 * p + 1) := by
    rw [List.drop_take]
    rw [List.drop_drop]
    rw [List.take_take]
    congr 1
    omega
  unfold rollAt
  rw [hlen]
  rw [if_pos (show p ≤ i ∧ i + p < m from ⟨h1, h2⟩)]
  rw [if_pos (show p ≤ s + i ∧ s + i + p < col.length from ⟨by omega, by omega⟩)]
  rw [hwin]
  rw [show s + (i - p) = s + i - p by omega]

theorem roll3_length (p : ℕ) (l : List OV3) : (roll3 p l).length = l.length := by
  simp [roll3, List.length_zip, rollCol_length]

theorem roll3_getElem (p : ℕ) (l : List OV3) (i : ℕ)
    (hi : i < (roll3 p l).length) :
    (roll3 p l)[i] =
      (rollAt p (l.map (fun r => r.1)) i,
       rollAt p (l.map (fun r => r.2.1)) i,
       rollAt p (l.map (fun r => r.2.2)) i) := by
  unfold roll3
  rw [List.getElem_zip, List.getElem_zip]
  rw [rollCol_getElem, rollCol_getElem, rollCol_getElem]

theorem pyTrim_length (p : ℕ) (hp : 1 ≤ p) (l : List α) :
    (pyTrim p l).length = l.length - 2 * p := by
  unfold pyTrim
  rw [if_neg (by omega)]
  rw [List.length_take, List.length_drop]
  omega

theorem pyTrim_getElem (p : ℕ) (hp : 1 ≤ p) (l : List α) (j : ℕ)
    (hj : j < (pyTrim p l).length) (hj2 : p + j < l.length) :
    (pyTrim p l)[j] = l[p + j] := by
  unfold pyTrim
  simp only [if_neg (show ¬ p = 0 by omega)]
  rw [List.getElem_take, List.getElem_drop]

/-- The trimmed rolling median of a `(n + 2p)`-row segment of `G` is the
matching `n`-row segment of the trimmed rolling median of `G`. -/
theorem trim_roll3_slice (p : ℕ) (hp : 1 ≤ p) (G : List OV3) (s n : ℕ)
    (hsn : s + (n + 2 * p) ≤ G.length) :
    pyTrim p (roll3 p ((G.drop s).take (n + 2 * p))) =
      ((pyTrim p (roll3 p G)).drop s).take n := by
  have hseg : ((G.drop s).take (n + 2 * p)).length = n + 2 * p := by
    rw [List.length_take, List.length_drop]
    omega
  have hlen1 : (pyTrim p (roll3 p ((G.drop s).take (n + 2 * p)))).length = n := by
    rw [pyTrim_length p hp, roll3_length, hseg]
    omega
  have hlen2 : (pyTrim p (roll3 p G)).length = G.length - 2 * p := by
    rw [pyTrim_length p hp, roll3_length]
  apply List.ext_getElem
  · rw [hlen1, List.length_take, List.length_drop, hlen2]
    omega
  · intro j hj1 hj2
    rw [List.getElem_take, List.getElem_drop]
    have hj : j < n := by rw [hlen1] at hj1; exact hj1
    have hrb1 : p + j < (roll3 p ((G.drop s).take (n + 2 * p))).length := by
      rw [roll3_length, hseg]
      omega
    have hrb2 : p + (s + j) < (roll3 p G).length := by
      rw [roll3_length]
      omega
    have hsb2 : s + j < (pyTrim p (roll3 p G)).length := by
      rw [hlen2]
      omega
    have e1 : (pyTrim p (roll3 p ((G.drop s).take (n + 2 * p))))[j] =
        (roll3 p ((G.drop s).take (n + 2 * p)))[p + j] :=
      pyTrim_getElem p hp _ j hj1 hrb1
    have e2 : (pyTrim p (roll3 p G))[s + j] = (roll3 p G)[p + (s + j)] :=
      pyTrim_getElem p hp _ (s + j) hsb2 hrb2
    rw [e1, e2]
    rw [roll3_getElem p _ (p + j) hrb1,
      roll3_getElem p G (p + (s + j)) hrb2]
    have hmapslice : ∀ f : OV3 → Option ℝ,
        ((G.drop s).take (n + 2 * p)).map f = ((G.map f).drop s).take (n + 2 * p) := by
      intro f
      rw [← List.map_drop, ← List.map_take]
    have hcol : ∀ f : OV3 → Option ℝ,
        rollAt p (((G.drop s).take (n + 2 * p)).map f) (p + j) =
          rollAt p (G.map f) (p + (s + j)) := by
      intro f
      rw [hmapslice f]
      have := rollAt_slice p (G.map f) s (n + 2 * p) (p + j)
        (by omega) (by omega) (by rw [List.length_map]; omega)
      rw [this]
      congr 1
      omega
    rw [hcol, hcol, hcol]

theorem nanCol_getElem (p : ℕ) (data : List ℝ) (idx : ℕ)
    (h : idx < (List.replicate p (none : Option ℝ) ++ data.map some ++
        List.replicate p none).length) :
    (List.replicate p (none : Option ℝ) ++ data.map some ++
        List.replicate p none)[idx].isSome = true ↔
      (p ≤ idx ∧ idx < p + data.length) := by
  have hlen : (List.replicate p (none : Option ℝ) ++ data.map some ++
      List.replicate p none).length = p + data.length + p := by
    simp [List.length_append]
    omega
  by_cases h1 : idx < p
  · rw [List.getElem_append_left (by simp [List.length_append]; omega)]
    rw [List.getElem_append_left (by simp; omega)]
    rw [List.getElem_replicate]
    simp
    omega
  · by_cases h2 : idx < p + data.length
    · rw [List.getElem_append_left (by simp [List.length_append]; omega)]
      rw [List.getElem_append_right (by simp; omega)]
      have hb : idx - (List.replicate p (none : Option ℝ)).length < (data.map some).length := by
        simp
        omega
      rw [List.getElem_map]
      simp
      omega
    · rw [List.getElem_append_right (by simp [List.length_append]; omega)]
      rw [List.getElem_replicate]
      simp
      omega

theorem rollAt_region (p : ℕ) (hp : 1 ≤ p) (data : List ℝ) (j : ℕ)
    (hj : j < data.length) :
    (rollAt p (List.replicate p (none : Option ℝ) ++ data.map some ++
        List.replicate p none) (p + j)).isSome = true ↔
      (p ≤ j ∧ j + p < data.length) := by
  set col := List.replicate p (none : Option ℝ) ++ data.map some ++
    List.replicate p none with hcol
  have hlen : col.length = p + data.length + p := by
    simp [hcol, List.length_append]
    omega
  have hwlen : ((col.drop (p + j - p)).take (2 * p + 1)).length = 2 * p + 1 := by
    rw [List.length_take, List.length_drop, hlen]
    omega
  have hwget : ∀ m, (hm1 : m < ((col.drop (p + j - p)).take (2 * p + 1)).length) →
      (hm2 : j + m < col.length) →
      ((col.drop (p + j - p)).take (2 * p + 1))[m] = col[j + m] := by
    intro m hm1 hm2
    rw [List.getElem_take, List.getElem_drop]
    congr 1
    omega
  have hwin_all : (((col.drop (p + j - p)).take (2 * p + 1)).all Option.isSome = true) ↔
      (p ≤ j ∧ j + p < data.length) := by
    rw [List.all_eq_true]
    constructor
    · intro hall
      constructor
      · by_contra hc
        push_neg at hc
        have hb0 : 0 < ((col.drop (p + j - p)).take (2 * p + 1)).length := by
          rw [hwlen]
          omega
        have hmem := hall (((col.drop (p + j - p)).take (2 * p + 1))[0])
          (List.getElem_mem _)
        rw [hwget 0 hb0 (by rw [hlen]; omega)] at hmem
        rw [nanCol_getElem p data (j + 0) (by rw [hlen]; omega)] at hmem
        omega
      · by_contra hc
        push_neg at hc
        have hb2 : 2 * p < ((col.drop (p + j - p)).take (2 * p + 1)).length := by
          rw [hwlen]
          omega
        have hmem := hall (((col.drop (p + j - p)).take (2 * p + 1))[2 * p])
          (List.getElem_mem _)
        rw [hwget (2 * p) hb2 (by rw [hlen]; omega)] at hmem
        rw [nanCol_getElem p data (j + 2 * p) (by rw [hlen]; omega)] at hmem
        omega
    · intro hreg x hx
      rw [List.mem_iff_getElem] at hx
      obtain ⟨m, hm, rfl⟩ := hx
      have hm2 : m < 2 * p + 1 := by
        rw [hwlen] at hm
        exact hm
      rw [hwget m hm (by rw [hlen]; omega)]
      rw [nanCol_getElem p data (j + m) (by rw [hlen]; omega)]
      omega
  unfold rollAt
  rw [if_pos (show p ≤ p + j ∧ p + j + p < col.length from
    ⟨by omega, by rw [hlen]; omega⟩)]
  rcases hall : ((col.drop (p + j - p)).take (2 * p + 1)).all Option.isSome with _ | _
  · rw [if_neg (by rw [hall]; simp)]
    rw [hall] at hwin_all
    constructor
    · intro habs
      simp at habs
    · intro hreg
      exact absurd (hwin_all.mpr hreg) (by simp)
  · rw [if_pos (by rw [hall])]
    rw [hall] at hwin_all
    constructor
    · intro _
      exact hwin_all.mp rfl
    · intro _
      simp

/-- The globally padded stream: the NaN prefix, all data rows, the NaN
suffix.  Every chunk's padded variant is a segment of this list. -/
def padG (p : ℕ) (D : List DRow) : List OV3 :=
  List.replicate p nanRow3 ++ D.map injRow ++ List.replicate p nanRow3

theorem padG_length (p : ℕ) (D : List DRow) :
    (padG p D).length = p + D.length + p := by
  simp [padG, List.length_append]
  omega

theorem padG_col1 (p : ℕ) (D : List DRow) :
    (padG p D).map (fun r => r.1) =
      List.replicate p (none : Option ℝ) ++
        (D.map (fun r => r.2.1)).map some ++ List.replicate p none := by
  simp [padG, injRow, nanRow3, List.map_append, List.map_replicate, List.map_map,
    Function.comp_def]

theorem padG_col2 (p : ℕ) (D : List DRow) :
    (padG p D).map (fun r => r.2.1) =
      List.replicate p (none : Option ℝ) ++
        (D.map (fun r => r.2.2.1)).map some ++ List.replicate p none := by
  simp [padG, injRow, nanRow3, List.map_append, List.map_replicate, List.map_map,
    Function.comp_def]

theorem padG_col3 (p : ℕ) (D : List DRow) :
    (padG p D).map (fun r => r.2.2) =
      List.replicate p (none : Option ℝ) ++
        (D.map (fun r => r.2.2.2)).map some ++ List.replicate p none := by
  simp [padG, injRow, nanRow3, List.map_append, List.map_replicate, List.map_map,
    Function.comp_def]

theorem trimmed_length (p : ℕ) (hp : 1 ≤ p) (D : List DRow) :
    (pyTrim p (roll3 p (padG p D))).length = D.length := by
  rw [pyTrim_length p hp, roll3_length, padG_length]
  omega

/-- The first cell of row `j` of the globally trimmed rolling median is
finite iff the centered window lies entirely inside the data. -/
theorem trimmed_region (p : ℕ) (hp : 1 ≤ p) (D : List DRow) (j : ℕ)
    (hj : j < (pyTrim p (roll3 p (padG p D))).length) (hj2 : j < D.length) :
    (((pyTrim p (roll3 p (padG p D)))[j]).1.isSome = true) ↔
      (p ≤ j ∧ j + p < D.length) := by
  rw [pyTrim_getElem p hp _ j hj (by rw [roll3_length, padG_length]; omega)]
  rw [roll3_getElem p _ (p + j) (by rw [roll3_length, padG_length]; omega)]
  show (rollAt p ((padG p D).map (fun r => r.1)) (p + j)).isSome = true ↔ _
  rw [padG_col1]
  have h := rollAt_region p hp (D.map (fun r => r.2.1)) j (by rw [List.length_map]; omega)
  rw [h, List.length_map]

/-- The result of a successful `fill_head_and_tail_nan` on an array with
first finite-column-0 row `a` and last such row `b`. -/
noncomputable def fillMap (x : List OV3) (a b : ℕ) : List OV3 :=
  (List.range x.length).map (fun j =>
    if j < a then x.getD a nanRow3
    else if b ≤ j then x.getD b nanRow3
    else x.getD j nanRow3)

theorem fillMap_length (x : List OV3) (a b : ℕ) :
    (fillMap x a b).length = x.length := by
  simp [fillMap]

theorem fillMap_getElem (x : List OV3) (a b j : ℕ)
    (hj : j < (fillMap x a b).length) :
    (fillMap x a b)[j] =
      (if j < a then x.getD a nanRow3
       else if b ≤ j then x.getD b nanRow3
       else x.getD j nanRow3) := by
  simp [fillMap]

/-- Filling a slice of `x` yields the matching slice of the filled
whole, provided the slice meets the finite region `[a0, b0]`. -/
theorem fill_slice_eq (x : List OV3) (a0 b0 s n : ℕ)
    (hreg : ∀ i, (hi : i < x.length) →
      ((x[i]).1.isSome = true ↔ (a0 ≤ i ∧ i ≤ b0)))
    (hab : a0 ≤ b0) (hb : b0 < x.length)
    (hsn : s + n ≤ x.length) (hn : 1 ≤ n)
    (hinter1 : a0 < s + n) (hinter2 : s ≤ b0) :
    fill_head_and_tail_nan ((x.drop s).take n) =
      some (((fillMap x a0 b0).drop s).take n) := by
  have hylen : ((x.drop s).take n).length = n := by
    rw [List.length_take, List.length_drop]
    omega
  have hyget : ∀ k, (hk1 : k < ((x.drop s).take n).length) →
      (hk2 : s + k < x.length) →
      ((x.drop s).take n)[k] = x[s + k] := by
    intro k hk1 hk2
    rw [List.getElem_take, List.getElem_drop]
  have ha' : max a0 s - s < n := by omega
  have hb' : min b0 (s + n - 1) - s < n := by omega
  have hfill := fill_spec ((x.drop s).take n) (max a0 s - s) (min b0 (s + n - 1) - s)
    (by omega) (by omega) (by omega)
    (by
      intro i hi hia
      rw [hylen] at hi
      rw [hyget i (by rw [hylen]; omega) (by omega)]
      have hr := hreg (s + i) (by omega)
      have hsi : s + i < x.length := by omega
      rcases hx : (x[s + i]).1.isSome with _ | _
      · rfl
      · rw [hx] at hr
        have := hr.mp rfl
        omega)
    (by
      rw [hyget (max a0 s - s) (by rw [hylen]; omega) (by omega)]
      have hr := hreg (s + (max a0 s - s)) (by omega)
      exact hr.mpr ⟨by omega, by omega⟩)
    (by
      intro i hi hbi
      rw [hylen] at hi
      rw [hyget i (by rw [hylen]; omega) (by omega)]
      have hr := hreg (s + i) (by omega)
      have hsi : s + i < x.length := by omega
      rcases hx : (x[s + i]).1.isSome with _ | _
      · rfl
      · rw [hx] at hr
        have := hr.mp rfl
        omega)
    (by
      rw [hyget (min b0 (s + n - 1) - s) (by rw [hylen]; omega) (by omega)]
      have hr := hreg (s + (min b0 (s + n - 1) - s)) (by omega)
      exact hr.mpr ⟨by omega, by omega⟩)
  rw [hfill]
  congr 1
  apply List.ext_getElem
  · rw [List.length_map, List.length_range, hylen, List.length_take,
      List.length_drop, fillMap_length]
    omega
  · intro j hj1 hj2
    rw [List.getElem_take, List.getElem_drop, fillMap_getElem]
    rw [List.getElem_map, List.getElem_range]
    have hjn : j < n := by
      rw [List.length_map, List.length_range, hylen] at hj1
      exact hj1
    have hgetD : ∀ k, k < n → ((x.drop s).take n).getD k nanRow3 =
        x.getD (s + k) nanRow3 := by
      intro k hk
      have h1 := List.getD_eq_getElem ((x.drop s).take n) nanRow3
        (show k < ((x.drop s).take n).length by rw [hylen]; omega)
      have h2 := List.getD_eq_getElem x nanRow3 (show s + k < x.length by omega)
      rw [h1, h2]
      exact hyget k (by rw [hylen]; omega) (by omega)
    have hxd : ∀ i1 i2 : ℕ, i1 = i2 → x.getD i1 nanRow3 = x.getD i2 nanRow3 := by
      intro i1 i2 h
      rw [h]
    by_cases c1 : j < max a0 s - s
    · rw [if_pos c1, if_pos (by omega : s + j < a0)]
      rw [hgetD _ (by omega)]
      exact hxd _ _ (by omega)
    · rw [if_neg c1]
      by_cases c2 : min b0 (s + n - 1) - s ≤ j
      · rw [if_pos c2]
        rw [hgetD _ (by omega)]
        by_cases c3 : s + j < a0
        · omega
        · rw [if_neg c3]
          by_cases c4 : b0 ≤ s + j
          · rw [if_pos c4]
            exact hxd _ _ (by omega)
          · rw [if_neg c4]
            exact hxd _ _ (by omega)
      · rw [if_neg c2]
        rw [hgetD _ (by omega)]
        rw [if_neg (by omega : ¬ s + j < a0), if_neg (by omega : ¬ b0 ≤ s + j)]

/-! ### The pairs emitted by `padded` as segments of the global stream -/

/-- Invariant tying the pairs emitted by `padded` to segments of the
data stream `D` and of the globally padded stream `G`: starting at
offset `s`, each pair holds the next slice of `D` and (when `p ≥ 1`) the
matching `2p`-widened slice of `G`; chunks are `W`-aligned and longer
than `p`; the offsets exhaust `D`. -/
def pairsOk (W p : ℕ) (D : List DRow) (G : List OV3) :
    ℕ → List (List DRow × List OV3) → Prop
  | s, [] => s = D.length
  | s, (c, pc) :: rest =>
      c = (D.drop s).take c.length ∧
      (1 ≤ p → pc = (G.drop s).take (c.length + 2 * p)) ∧
      W ∣ c.length ∧ p < c.length ∧ pairsOk W p D G (s + c.length) rest

theorem padG_drop (p : ℕ) (D : List DRow) (t : ℕ) (ht : t ≤ D.length) :
    (padG p D).drop (p + t) = (D.drop t).map injRow ++ List.replicate p nanRow3 := by
  unfold padG
  rw [List.append_assoc]
  have h1 : (List.replicate p nanRow3 ++
        (D.map injRow ++ List.replicate p nanRow3)).drop (p + t) =
      (D.map injRow ++ List.replicate p nanRow3).drop t := by
    rw [show p + t = (List.replicate p (nanRow3 : OV3)).length + t by simp]
    exact List.drop_append t
  rw [h1]
  rw [List.drop_append_of_le_length (by rw [List.length_map]; omega)]
  rw [List.map_drop]

theorem paddedGo_ok (W p : ℕ) (D : List DRow) :
    ∀ (rest : List (List DRow)) (chunk : List DRow) (t : ℕ) (prepend : List OV3),
      (chunk :: rest).flatten = D.drop t →
      t ≤ D.length →
      (∀ c ∈ chunk :: rest, W ∣ c.length ∧ p < c.length) →
      (1 ≤ p → prepend = ((padG p D).drop t).take p) →
      (paddedGo injRow nanRow3 p prepend
          (List.replicate p nanRow3) chunk rest).2 = none ∧
      pairsOk W p D (padG p D) t
        (paddedGo injRow nanRow3 p prepend (List.replicate p nanRow3) chunk rest).1 := by
  intro rest
  induction rest with
  | nil =>
    intro chunk t prepend hflat ht hlens hpre
    have hflat' : chunk = D.drop t := by simpa using hflat
    have hn : chunk.length = D.length - t := by rw [hflat', List.length_drop]
    rw [paddedGo]
    refine ⟨rfl, ?_, ?_, (hlens chunk (by simp)).1, (hlens chunk (by simp)).2, ?_⟩
    · rw [hflat', List.take_length]
    · intro hp
      rw [hpre hp]
      have hdrop : (padG p D).drop (p + t) =
          chunk.map injRow ++ List.replicate p nanRow3 := by
        rw [padG_drop p D t ht, hflat']
      have hsplit : ((padG p D).drop t).take (chunk.length + 2 * p) =
          ((padG p D).drop t).take p ++
            ((padG p D).drop (p + t)).take (chunk.length + p) := by
        rw [show chunk.length + 2 * p = p + (chunk.length + p) by omega]
        rw [slice_split (padG p D) t p (chunk.length + p)]
        rw [show t + p = p + t by omega]
      rw [hsplit, List.append_assoc]
      congr 1
      rw [hdrop]
      rw [List.take_of_length_le (by
        rw [List.length_append, List.length_map, List.length_replicate])]
    · show t + chunk.length = D.length
      omega
  | cons next rest2 ih =>
    intro chunk t prepend hflat ht hlens hpre
    have hc := hlens chunk (by simp)
    have hnx := hlens next (by simp)
    have h1 : chunk ++ (next :: rest2).flatten = D.drop t := by
      simpa [List.flatten_cons] using hflat
    have hlentot : chunk.length ≤ D.length - t := by
      have hlen := congrArg List.length h1
      simp only [List.length_append, List.length_drop] at hlen
      omega
    have hflat2 : (next :: rest2).flatten = D.drop (t + chunk.length) := by
      have h2 := congrArg (List.drop chunk.length) h1
      rw [List.drop_left] at h2
      rw [h2, List.drop_drop]
    have hsl : chunk = (D.drop t).take chunk.length := by
      rw [← h1, List.take_append_of_le_length (Nat.le_refl _), List.take_length]
    have hpre2 : 1 ≤ p → (pyLastRows chunk p).map injRow =
        ((padG p D).drop (t + chunk.length)).take p := by
      intro hp
      have hply : pyLastRows chunk p = chunk.drop (chunk.length - p) := by
        unfold pyLastRows
        rw [if_neg (by omega)]
      rw [hply]
      rw [show chunk.drop (chunk.length - p) =
        ((D.drop t).take chunk.length).drop (chunk.length - p) from by rw [← hsl]]
      rw [List.drop_take, List.drop_drop]
      rw [show chunk.length - (chunk.length - p) = p by omega]
      have he3 : t + chunk.length = p + (t + (chunk.length - p)) := by omega
      rw [he3, padG_drop p D (t + (chunk.length - p)) (by omega)]
      rw [List.take_append_of_le_length (by
        rw [List.length_map, List.length_drop]
        omega)]
      rw [← List.map_take]
    have hrec := ih next (t + chunk.length) ((pyLastRows chunk p).map injRow)
      hflat2 (by omega) (fun c hc2 => hlens c (List.mem_cons_of_mem _ hc2)) hpre2
    rw [paddedGo]
    rw [if_neg (by omega : ¬ chunk.length < p)]
    have hnap : p - next.length = 0 := by omega
    simp only [hnap, List.take_zero, List.drop_zero, List.append_nil]
    refine ⟨hrec.1, hsl, ?_, hc.1, hc.2, hrec.2⟩
    intro hp
    rw [hpre hp]
    have hsplit : ((padG p D).drop t).take (chunk.length + 2 * p) =
        ((padG p D).drop t).take p ++
          ((padG p D).drop (p + t)).take (chunk.length + p) := by
      rw [show chunk.length + 2 * p = p + (chunk.length + p) by omega]
      rw [slice_split (padG p D) t p (chunk.length + p)]
      rw [show t + p = p + t by omega]
    rw [hsplit, List.append_assoc]
    congr 1
    rw [padG_drop p D t ht, ← h1, List.map_append]
    rw [show chunk.length + p = (chunk.map injRow).length + p by rw [List.length_map]]
    rw [List.append_assoc, List.take_append]
    congr 1
    rw [List.flatten_cons, List.map_append, List.append_assoc]
    rw [List.take_append_of_le_length (by rw [List.length_map]; omega)]
    rw [← List.map_take]

theorem pairsOk_le (W p : ℕ) (D : List DRow) (G : List OV3) :
    ∀ (pairs : List (List DRow × List OV3)) (s : ℕ),
      pairsOk W p D G s pairs → s ≤ D.length := by
  intro pairs
  induction pairs with
  | nil =>
    intro s h
    exact le_of_eq h
  | cons pr rest ih =>
    intro s h
    obtain ⟨c, pc⟩ := pr
    obtain ⟨-, -, -, -, hrest⟩ := h
    have := ih (s + c.length) hrest
    omega

/-- The whole-file repaired rolling median: `fill_head_and_tail_nan`
applied (in explicit form) to the trimmed global rolling median, whose
finite region is `[p, len - p - 1]`. -/
noncomputable def globalFill (p : ℕ) (D : List DRow) : List OV3 :=
  fillMap (pyTrim p (roll3 p (padG p D))) p (D.length - p - 1)

theorem globalFill_length (p : ℕ) (hp : 1 ≤ p) (D : List DRow) :
    (globalFill p D).length = D.length := by
  rw [globalFill, fillMap_length, trimmed_length p hp]

theorem slice_slice (y : List α) (s n a b : ℕ) (h : a + b ≤ n) :
    (((y.drop s).take n).drop a).take b = (y.drop (s + a)).take b := by
  rw [List.drop_take, List.drop_drop, List.take_take]
  rw [Nat.min_eq_left (by omega)]

theorem slice_map (f : α → β) (y : List α) (s n : ℕ) :
    ((y.drop s).take n).map f = ((y.map f).drop s).take n := by
  rw [List.map_take, List.map_drop]

theorem getD_drop (l : List α) (m i : ℕ) (d : α) :
    (l.drop m).getD i d = l.getD (m + i) d := by
  by_cases h : m + i < l.length
  · rw [List.getD_eq_getElem _ _ (by rw [List.length_drop]; omega), List.getElem_drop,
      List.getD_eq_getElem _ _ h]
  · rw [List.getD_eq_default _ _ (by rw [List.length_drop]; omega),
      List.getD_eq_default _ _ (by omega)]

theorem foldr_min_const (m : ℕ) :
    ∀ L : List (Option ℕ), (∀ x ∈ L, x = none ∨ x = some m) →
      L.reduceOption.foldr min m = m := by
  intro L
  induction L with
  | nil =>
    intro _
    rfl
  | cons x xs ih =>
    intro hx
    rcases hx x (by simp) with h | h
    · rw [h, List.reduceOption_cons_of_none]
      exact ih (fun y hy => hx y (by simp [hy]))
    · rw [h, List.reduceOption_cons_of_some, List.foldr_cons]
      rw [ih (fun y hy => hx y (by simp [hy]))]
      exact Nat.min_self m

theorem div_of_dvd_pred (W n : ℕ) (hW : 1 ≤ W) (h : W ∣ n) :
    (n + W - 1) / W = n / W := by
  obtain ⟨q, hq⟩ := h
  subst hq
  rw [show W * q + W - 1 = W * q + (W - 1) by omega]
  rw [Nat.mul_add_div (by omega)]
  rw [Nat.div_eq_of_lt (by omega)]
  rw [Nat.mul_div_cancel_left q (by omega)]
  omega

theorem everyNth_getD (k : ℕ) (hk : 1 ≤ k) (d : α) :
    ∀ (fuel : ℕ) (l : List α), l.length ≤ fuel →
      ∀ i, (everyNth k l).getD i d = l.getD (i * k) d := by
  intro fuel
  induction fuel with
  | zero =>
    intro l hl i
    match l, hl with
    | [], _ =>
      rw [show everyNth k ([] : List α) = [] from by rw [everyNth]]
      rw [List.getD_eq_default _ _ (by simp), List.getD_eq_default _ _ (by simp)]
  | succ fuel ih =>
    intro l hl i
    match l with
    | [] =>
      rw [show everyNth k ([] : List α) = [] from by rw [everyNth]]
      rw [List.getD_eq_default _ _ (by simp), List.getD_eq_default _ _ (by simp)]
    | x :: xs =>
      rw [everyNth]
      cases i with
      | zero =>
        rw [List.getD_cons_zero, Nat.zero_mul, List.getD_cons_zero]
      | succ i =>
        rw [List.getD_cons_succ]
        rw [ih (xs.drop (k - 1))
          (by simp only [List.length_drop, List.length_cons] at hl ⊢; omega) i]
        rw [getD_drop]
        rw [show (i + 1) * k = (k - 1 + i * k) + 1 from by
          rw [Nat.add_mul, Nat.one_mul]
          omega]
        rw [List.getD_cons_succ]

/-- Window `i` of the single-pass output, starting at data row `j = i·W`:
the strided datetime, and each requested metric's per-window mean over
rows `[j, j+W)` — the angle window reads the globally repaired rolling
median. -/
noncomputable def rowAt (ws sp p : ℕ) (metrics : List String) (D : List DRow)
    (j : ℕ) : OutRow :=
  { datetime := (D.map (fun r => r.1)).getD j 0,
    anglex := if "angles" ∈ metrics then
        some (npMean (((((globalFill p D).map devalue).drop j).take
          (samplesPerWindow ws sp)).map (fun v => (sampleAngles v).1)))
      else none,
    angley := if "angles" ∈ metrics then
        some (npMean (((((globalFill p D).map devalue).drop j).take
          (samplesPerWindow ws sp)).map (fun v => (sampleAngles v).2.1)))
      else none,
    anglez := if "angles" ∈ metrics then
        some (npMean (((((globalFill p D).map devalue).drop j).take
          (samplesPerWindow ws sp)).map (fun v => (sampleAngles v).2.2)))
      else none,
    en := if "en" ∈ metrics then
        some (npMean ((((D.map (fun r => r.2)).drop j).take
          (samplesPerWindow ws sp)).map sampleNorm))
      else none,
    enmo := if "enmo" ∈ metrics then
        some (npMean ((((D.map (fun r => r.2)).drop j).take
          (samplesPerWindow ws sp)).map (fun v => max (sampleNorm v - 1) 0)))
      else none }

theorem mkRows_of_lengths (c : Cols) (m : ℕ) (hdt : c.dt.length = m)
    (hang : ∀ a ∈ c.ang, min a.1.length (min a.2.1.length a.2.2.length) = m)
    (hen : ∀ e ∈ c.en, e.length = m)
    (henmo : ∀ e ∈ c.enmo, e.length = m) :
    mkRows c = (List.range m).map (fun i =>
      { datetime := c.dt.getD i 0,
        anglex := c.ang.map (fun a => a.1.getD i 0),
        angley := c.ang.map (fun a => a.2.1.getD i 0),
        anglez := c.ang.map (fun a => a.2.2.getD i 0),
        en := c.en.map (fun e => e.getD i 0),
        enmo := c.enmo.map (fun e => e.getD i 0) }) := by
  have hfold : [c.ang.map (fun a => min a.1.length (min a.2.1.length a.2.2.length)),
      c.en.map List.length, c.enmo.map List.length].reduceOption.foldr
        min c.dt.length = m := by
    rw [hdt]
    apply foldr_min_const
    intro x hx
    simp only [List.mem_cons, List.not_mem_nil, or_false] at hx
    rcases hx with h | h | h
    · subst h
      cases hc : c.ang with
      | none => exact Or.inl rfl
      | some a =>
        refine Or.inr ?_
        rw [Option.map_some']
        rw [hang a (by rw [hc]; rfl)]
    · subst h
      cases hc : c.en with
      | none => exact Or.inl rfl
      | some e =>
        refine Or.inr ?_
        rw [Option.map_some']
        rw [hen e (by rw [hc]; rfl)]
    · subst h
      cases hc : c.enmo with
      | none => exact Or.inl rfl
      | some e =>
        refine Or.inr ?_
        rw [Option.map_some']
        rw [henmo e (by rw [hc]; rfl)]
  unfold mkRows
  rw [hfold]

theorem en_comp (X : List (List (ℝ × ℝ × ℝ))) :
    en X = X.map (fun win => npMean (win.map sampleNorm)) := by
  unfold en
  simp only [List.map_map, Function.comp_def]

theorem enmo_comp (X : List (List (ℝ × ℝ × ℝ))) :
    enmo X = X.map (fun win => npMean (win.map (fun v => max (sampleNorm v - 1) 0))) := by
  unfold enmo
  simp only [List.map_map, Function.comp_def]

theorem wa_comp (X : List (List (ℝ × ℝ × ℝ))) :
    (windowed_angles X).1 =
        X.map (fun win => npMean (win.map (fun v => (sampleAngles v).1))) ∧
      (windowed_angles X).2.1 =
        X.map (fun win => npMean (win.map (fun v => (sampleAngles v).2.1))) ∧
      (windowed_angles X).2.2 =
        X.map (fun win => npMean (win.map (fun v => (sampleAngles v).2.2))) := by
  unfold windowed_angles
  refine ⟨?_, ?_, ?_⟩ <;> simp only [List.map_map, Function.comp_def]

theorem stw_slice_getD (y : List β) (ws sp : ℕ) (hW : 1 ≤ samplesPerWindow ws sp)
    (s n i : ℕ) (hsn : s + n ≤ y.length)
    (hiW : i * samplesPerWindow ws sp + samplesPerWindow ws sp ≤ n) :
    (separate_time_windows ((y.drop s).take n) ws sp).getD i [] =
      (y.drop (s + i * samplesPerWindow ws sp)).take (samplesPerWindow ws sp) := by
  have hslen : ((y.drop s).take n).length = n := by
    rw [List.length_take, List.length_drop]
    omega
  have hi : i < n / samplesPerWindow ws sp := by
    have h2 : (i + 1) * samplesPerWindow ws sp ≤ n := by
      rw [Nat.add_mul, Nat.one_mul]
      omega
    have h4 : i + 1 ≤ n / samplesPerWindow ws sp :=
      (Nat.le_div_iff_mul_le (by omega)).mpr h2
    omega
  rw [stw_eq]
  rw [List.getD_eq_getElem _ _ (by
    rw [List.length_map, List.length_range, hslen]
    exact hi)]
  rw [List.getElem_map, List.getElem_range]
  rw [slice_slice y s n (i * (ws * 1000 / sp)) (ws * 1000 / sp) (by
    show i * samplesPerWindow ws sp + samplesPerWindow ws sp ≤ n
    omega)]
  rfl

/-- The per-chunk column dictionary built on the slice `[s, s+n)` of the
data (with the angle column, when requested, built on the matching slice
of the globally repaired rolling median) flattens to rows `rowAt (s + i·W)`. -/
theorem mkRows_slice (ws sp p : ℕ) (metrics : List String) (D : List DRow)
    (hW : 1 ≤ samplesPerWindow ws sp) (s n : ℕ)
    (hWn : samplesPerWindow ws sp ∣ n) (hsn : s + n ≤ D.length)
    (hgf : "angles" ∈ metrics → (globalFill p D).length = D.length) :
    mkRows ⟨everyNth (samplesPerWindow ws sp) (((D.drop s).take n).map (fun r => r.1)),
        (if "angles" ∈ metrics then
          some (windowed_angles (separate_time_windows
            ((((globalFill p D).drop s).take n).map devalue) ws sp))
        else none),
        (if "en" ∈ metrics then
          some (en (separate_time_windows
            (((D.drop s).take n).map (fun r => r.2)) ws sp))
        else none),
        (if "enmo" ∈ metrics then
          some (enmo (separate_time_windows
            (((D.drop s).take n).map (fun r => r.2)) ws sp))
        else none)⟩ =
      (List.range (n / samplesPerWindow ws sp)).map
        (fun i => rowAt ws sp p metrics D (s + i * samplesPerWindow ws sp)) := by
  have hslen : ((D.drop s).take n).length = n := by
    rw [List.length_take, List.length_drop]
    omega
  have hZlen : "angles" ∈ metrics →
      ((((globalFill p D).drop s).take n).map devalue).length = n := by
    intro hm
    rw [List.length_map, List.length_take, List.length_drop, hgf hm]
    omega
  refine (mkRows_of_lengths _ (n / samplesPerWindow ws sp) ?_ ?_ ?_ ?_).trans ?_
  · show (everyNth (samplesPerWindow ws sp) _).length = _
    rw [everyNth_len (samplesPerWindow ws sp) hW _ _ (Nat.le_refl _)]
    rw [List.length_map, hslen]
    exact div_of_dvd_pred _ n hW hWn
  · intro a ha
    by_cases hm : "angles" ∈ metrics
    · rw [if_pos hm] at ha
      simp only [Option.mem_def, Option.some.injEq] at ha
      subst ha
      rw [(wa_comp _).1, (wa_comp _).2.1, (wa_comp _).2.2]
      simp only [List.length_map]
      rw [separate_time_windows_length, hZlen hm]
      simp only [Nat.min_self]
      rfl
    · rw [if_neg hm] at ha
      simp at ha
  · intro e he
    by_cases hm : "en" ∈ metrics
    · rw [if_pos hm] at he
      simp only [Option.mem_def, Option.some.injEq] at he
      subst he
      rw [en_comp, List.length_map, separate_time_windows_length,
        List.length_map, hslen]
      rfl
    · rw [if_neg hm] at he
      simp at he
  · intro e he
    by_cases hm : "enmo" ∈ metrics
    · rw [if_pos hm] at he
      simp only [Option.mem_def, Option.some.injEq] at he
      subst he
      rw [enmo_comp, List.length_map, separate_time_windows_length,
        List.length_map, hslen]
      rfl
    · rw [if_neg hm] at he
      simp at he
  · apply List.map_congr_left
    intro i hi
    rw [List.mem_range] at hi
    have hiW : i * samplesPerWindow ws sp + samplesPerWindow ws sp ≤ n := by
      have h2 : (i + 1) * samplesPerWindow ws sp ≤
          (n / samplesPerWindow ws sp) * samplesPerWindow ws sp :=
        Nat.mul_le_mul_right _ hi
      rw [Nat.div_mul_cancel hWn] at h2
      rw [Nat.add_mul, Nat.one_mul] at h2
      exact h2
    have hEi : (separate_time_windows
        (((D.map (fun r => r.2)).drop s).take n) ws sp).getD i [] =
        ((D.map (fun r => r.2)).drop (s + i * samplesPerWindow ws sp)).take
          (samplesPerWindow ws sp) :=
      stw_slice_getD _ ws sp hW s n i (by rw [List.length_map]; omega) hiW
    have hAi : "angles" ∈ metrics → (separate_time_windows
        ((((globalFill p D).map devalue).drop s).take n) ws sp).getD i [] =
        (((globalFill p D).map devalue).drop (s + i * samplesPerWindow ws sp)).take
          (samplesPerWindow ws sp) := fun hm =>
      stw_slice_getD _ ws sp hW s n i (by rw [List.length_map, hgf hm]; omega) hiW
    have hiE : i < (separate_time_windows
        (((D.map (fun r => r.2)).drop s).take n) ws sp).length := by
      rw [separate_time_windows_length]
      rw [show (((D.map (fun r => r.2)).drop s).take n).length = n from by
        rw [List.length_take, List.length_drop, List.length_map]
        omega]
      exact hi
    have hiA : "angles" ∈ metrics → i < (separate_time_windows
        ((((globalFill p D).map devalue).drop s).take n) ws sp).length := by
      intro hm
      rw [separate_time_windows_length]
      rw [show ((((globalFill p D).map devalue).drop s).take n).length = n from by
        rw [List.length_take, List.length_drop, List.length_map, hgf hm]
        omega]
      exact hi
    rw [rowAt]
    dsimp only
    congr 1
    · -- datetime
      rw [everyNth_getD (samplesPerWindow ws sp) hW 0 _ _ (Nat.le_refl _) i]
      rw [slice_map]
      rw [List.getD_eq_getElem _ _ (by
        rw [List.length_take, List.length_drop, List.length_map]
        omega)]
      rw [List.getElem_take, List.getElem_drop]
      rw [List.getD_eq_getElem _ _ (by rw [List.length_map]; omega)]
    · -- anglex
      by_cases hm : "angles" ∈ metrics
      · rw [if_pos hm, if_pos hm, Option.map_some']
        rw [slice_map, (wa_comp _).1]
        rw [List.getD_eq_getElem _ _ (by rw [List.length_map]; exact hiA hm)]
        simp only [List.getElem_map]
        have hAi2 := hAi hm
        rw [List.getD_eq_getElem _ _ (hiA hm)] at hAi2
        rw [hAi2]
      · rw [if_neg hm, if_neg hm]
        rfl
    · -- angley
      by_cases hm : "angles" ∈ metrics
      · rw [if_pos hm, if_pos hm, Option.map_some']
        rw [slice_map, (wa_comp _).2.1]
        rw [List.getD_eq_getElem _ _ (by rw [List.length_map]; exact hiA hm)]
        simp only [List.getElem_map]
        have hAi2 := hAi hm
        rw [List.getD_eq_getElem _ _ (hiA hm)] at hAi2
        rw [hAi2]
      · rw [if_neg hm, if_neg hm]
        rfl
    · -- anglez
      by_cases hm : "angles" ∈ metrics
      · rw [if_pos hm, if_pos hm, Option.map_some']
        rw [slice_map, (wa_comp _).2.2]
        rw [List.getD_eq_getElem _ _ (by rw [List.length_map]; exact hiA hm)]
        simp only [List.getElem_map]
        have hAi2 := hAi hm
        rw [List.getD_eq_getElem _ _ (hiA hm)] at hAi2
        rw [hAi2]
      · rw [if_neg hm, if_neg hm]
        rfl
    · -- en
      by_cases hm : "en" ∈ metrics
      · rw [if_pos hm, if_pos hm, Option.map_some']
        rw [slice_map, en_comp]
        rw [List.getD_eq_getElem _ _ (by rw [List.length_map]; exact hiE)]
        simp only [List.getElem_map]
        have hEi2 := hEi
        rw [List.getD_eq_getElem _ _ hiE] at hEi2
        rw [hEi2]
      · rw [if_neg hm, if_neg hm]
        rfl
    · -- enmo
      by_cases hm : "enmo" ∈ metrics
      · rw [if_pos hm, if_pos hm, Option.map_some']
        rw [slice_map, enmo_comp]
        rw [List.getD_eq_getElem _ _ (by rw [List.length_map]; exact hiE)]
        simp only [List.getElem_map]
        have hEi2 := hEi
        rw [List.getD_eq_getElem _ _ hiE] at hEi2
        rw [hEi2]
      · rw [if_neg hm, if_neg hm]
        rfl

/-- With `padding = 0` the requested angle column is computed from
`x[0:-0] =` the empty array, whose repair always fails. -/
theorem blockRows_angles_p0 (ws sp : ℕ) (metrics : List String)
    (hm : "angles" ∈ metrics) (chunk : List DRow) (pc : List OV3) :
    blockRows ws sp 0 metrics chunk pc = none := by
  simp only [blockRows]
  rw [if_pos hm]
  rw [show pyTrim 0 (roll3 0 pc) = [] from by rw [pyTrim]; simp]
  rfl

/-- The loop body on the pair for the data slice `[s, s+n)` produces
exactly the single-pass rows of windows `[s/W, (s+n)/W)`. -/
theorem blockRows_seg (ws sp p : ℕ) (metrics : List String) (D : List DRow)
    (hW : 1 ≤ samplesPerWindow ws sp)
    (hang : "angles" ∈ metrics → 1 ≤ p ∧ 2 * p < D.length)
    (s n : ℕ) (hWn : samplesPerWindow ws sp ∣ n) (hsn : s + n ≤ D.length) (hpn : p < n)
    (pc : List OV3) (hpc : 1 ≤ p → pc = ((padG p D).drop s).take (n + 2 * p)) :
    blockRows ws sp p metrics ((D.drop s).take n) pc =
      some ((List.range (n / samplesPerWindow ws sp)).map
        (fun i => rowAt ws sp p metrics D (s + i * samplesPerWindow ws sp))) := by
  simp only [blockRows]
  by_cases hm : "angles" ∈ metrics
  · obtain ⟨hp1, hp2⟩ := hang hm
    rw [if_pos hm]
    have htr : pyTrim p (roll3 p pc) =
        ((pyTrim p (roll3 p (padG p D))).drop s).take n := by
      rw [hpc hp1]
      exact trim_roll3_slice p hp1 (padG p D) s n (by rw [padG_length]; omega)
    have hreg : ∀ j, (hj : j < (pyTrim p (roll3 p (padG p D))).length) →
        (((pyTrim p (roll3 p (padG p D)))[j]).1.isSome = true ↔
          (p ≤ j ∧ j ≤ D.length - p - 1)) := by
      intro j hj
      have hj' : j < D.length := by
        have h2 := hj
        rw [trimmed_length p hp1] at h2
        exact h2
      rw [trimmed_region p hp1 D j hj hj']
      exact ⟨fun h => ⟨h.1, by omega⟩, fun h => ⟨h.1, by omega⟩⟩
    have hfill := fill_slice_eq (pyTrim p (roll3 p (padG p D))) p (D.length - p - 1)
      s n hreg
      (by omega)
      (by rw [trimmed_length p hp1]; omega)
      (by rw [trimmed_length p hp1]; omega)
      (by omega)
      (by omega)
      (by omega)
    rw [htr, hfill]
    show some (mkRows _) = _
    rw [← globalFill]
    rw [show (some (windowed_angles (separate_time_windows
        ((((globalFill p D).drop s).take n).map devalue) ws sp)) :
          Option (List ℝ × List ℝ × List ℝ)) =
        (if "angles" ∈ metrics then
          some (windowed_angles (separate_time_windows
            ((((globalFill p D).drop s).take n).map devalue) ws sp))
        else none) from (if_pos hm).symm]
    exact congrArg some
      (mkRows_slice ws sp p metrics D hW s n hWn hsn
        (fun _ => globalFill_length p hp1 D))
  · rw [if_neg hm]
    rw [show (none : Option (List ℝ × List ℝ × List ℝ)) =
        (if "angles" ∈ metrics then
          some (windowed_angles (separate_time_windows
            ((((globalFill p D).drop s).take n).map devalue) ws sp))
        else none) from (if_neg hm).symm]
    exact congrArg some
      (mkRows_slice ws sp p metrics D hW s n hWn hsn
        (fun hm2 => absurd hm2 hm))

/-- Driving the loop over pairs that cover `[s, len)` produces exactly
the single-pass rows of the remaining windows. -/
theorem metricsLoop_segments (ws sp p : ℕ) (metrics : List String) (D : List DRow)
    (hW : 1 ≤ samplesPerWindow ws sp) (hdvd : sp ∣ ws * 1000)
    (hang : "angles" ∈ metrics → 1 ≤ p ∧ 2 * p < D.length) :
    ∀ (pairs : List (List DRow × List OV3)) (s : ℕ),
      pairsOk (samplesPerWindow ws sp) p D (padG p D) s pairs →
      metricsLoop ws sp p metrics pairs none =
        some ((List.range ((D.length - s) / samplesPerWindow ws sp)).map
          (fun i => rowAt ws sp p metrics D (s + i * samplesPerWindow ws sp))) := by
  intro pairs
  induction pairs with
  | nil =>
    intro s hok
    have hs : s = D.length := hok
    rw [metricsLoop, hs, Nat.sub_self, Nat.zero_div]
    rfl
  | cons pr rest ih =>
    intro s hok
    obtain ⟨c, pc⟩ := pr
    obtain ⟨hceq, hpceq, hdvdn, hpn, hrest⟩ := hok
    have hsn : s + c.length ≤ D.length := pairsOk_le _ _ _ _ rest (s + c.length) hrest
    have hcW : samplesPerWindow ws sp ≤ c.length := Nat.le_of_dvd (by omega) hdvdn
    have hspW : sp * samplesPerWindow ws sp = ws * 1000 := by
      show sp * (ws * 1000 / sp) = ws * 1000
      rw [Nat.mul_div_cancel' hdvd]
    rw [metricsLoop]
    rw [if_neg (by
      have := Nat.mul_le_mul_left sp hcW
      omega)]
    have hbr := blockRows_seg ws sp p metrics D hW hang s c.length hdvdn hsn hpn pc hpceq
    rw [← hceq] at hbr
    rw [hbr, ih (s + c.length) hrest]
    have key : (List.range (c.length / samplesPerWindow ws sp)).map
          (fun i => rowAt ws sp p metrics D (s + i * samplesPerWindow ws sp)) ++
        (List.range ((D.length - (s + c.length)) / samplesPerWindow ws sp)).map
          (fun i => rowAt ws sp p metrics D
            (s + c.length + i * samplesPerWindow ws sp)) =
        (List.range ((D.length - s) / samplesPerWindow ws sp)).map
          (fun i => rowAt ws sp p metrics D (s + i * samplesPerWindow ws sp)) := by
      obtain ⟨q, hq⟩ := hdvdn
      have hdadd : (D.length - s) / samplesPerWindow ws sp =
          c.length / samplesPerWindow ws sp +
            (D.length - (s + c.length)) / samplesPerWindow ws sp := by
        rw [show D.length - s =
          samplesPerWindow ws sp * q + (D.length - (s + c.length)) from by omega]
        rw [Nat.mul_add_div (by omega)]
        rw [hq, Nat.mul_div_cancel_left q (by omega)]
      rw [hdadd, List.range_add, List.map_append, List.map_map]
      congr 1
      apply List.map_congr_left
      intro j hj
      show rowAt ws sp p metrics D (s + c.length + j * samplesPerWindow ws sp) =
        rowAt ws sp p metrics D
          (s + (c.length / samplesPerWindow ws sp + j) * samplesPerWindow ws sp)
      congr 1
      have h5 : (c.length / samplesPerWindow ws sp + j) * samplesPerWindow ws sp =
          c.length / samplesPerWindow ws sp * samplesPerWindow ws sp +
            j * samplesPerWindow ws sp := Nat.add_mul _ _ _
      have h6 : c.length / samplesPerWindow ws sp * samplesPerWindow ws sp =
          c.length := Nat.div_mul_cancel ⟨q, hq⟩
      omega
    exact congrArg some key

theorem metricsLoop_head_none (ws sp p : ℕ) (metrics : List String)
    (c : List DRow) (pc : List OV3) (rest : List (List DRow × List OV3))
    (err : Option PadError)
    (hnb : ¬ sp * c.length < ws * 1000)
    (hb : blockRows ws sp p metrics c pc = none) :
    metricsLoop ws sp p metrics ((c, pc) :: rest) err = none := by
  rw [metricsLoop, if_neg hnb, hb]

theorem paddedRun_cons (inj : τ → ρ) (nan : ρ) (c1 c2 : List τ)
    (cs : List (List τ)) (p : ℕ) (h : ¬ c1.length < p) :
    ∃ pc1 rest2 err2,
      paddedRun inj nan (c1 :: c2 :: cs) p = ((c1, pc1) :: rest2, err2) := by
  rw [paddedRun, paddedGo, if_neg h]
  exact ⟨_, _, _, rfl⟩

/-- Running the pipeline on any `W`-aligned chunking whose chunks all
exceed the padding gives the single-pass (one chunk) result. -/
theorem runPipeline_eq_single (ws sp : ℕ) (metrics : List String) (hpa : ℚ)
    (hW : 1 ≤ samplesPerWindow ws sp) (hdvd : sp ∣ ws * 1000)
    (cs : List (List DRow)) (hcs : cs ≠ [])
    (hlens : ∀ c ∈ cs, samplesPerWindow ws sp ∣ c.length ∧
      paddingOf sp hpa < c.length) :
    runPipeline ws sp metrics hpa cs = runPipeline ws sp metrics hpa [cs.flatten] := by
  match cs, hcs with
  | [], h => exact absurd rfl h
  | [c], _ =>
    rw [show ([c] : List (List DRow)).flatten = c by simp]
  | c1 :: c2 :: rest, _ =>
    have hc1 := hlens c1 (by simp)
    have hc2 := hlens c2 (by simp)
    unfold runPipeline
    by_cases hall : (metrics.all fun m => m == "angles" || m == "enmo" || m == "en") = true
    · rw [if_pos hall, if_pos hall]
      show metricsLoop ws sp (paddingOf sp hpa) metrics
          (paddedRun injRow nanRow3 (c1 :: c2 :: rest) (paddingOf sp hpa)).1
          (paddedRun injRow nanRow3 (c1 :: c2 :: rest) (paddingOf sp hpa)).2 =
        metricsLoop ws sp (paddingOf sp hpa) metrics
          (paddedRun injRow nanRow3 [(c1 :: c2 :: rest).flatten] (paddingOf sp hpa)).1
          (paddedRun injRow nanRow3 [(c1 :: c2 :: rest).flatten] (paddingOf sp hpa)).2
      set D := (c1 :: c2 :: rest).flatten with hD
      have hdvdflat : ∀ (L : List (List DRow)),
          (∀ c ∈ L, samplesPerWindow ws sp ∣ c.length) →
          samplesPerWindow ws sp ∣ L.flatten.length := by
        intro L
        induction L with
        | nil =>
          intro _
          simp
        | cons a t iht =>
          intro h
          rw [List.flatten_cons, List.length_append]
          exact Nat.dvd_add (h a (by simp)) (iht (fun c hc => h c (by simp [hc])))
      have hDsum : c1.length + c2.length ≤ D.length := by
        rw [hD]
        rw [List.flatten_cons, List.flatten_cons, List.length_append, List.length_append]
        omega
      have hDdvd : samplesPerWindow ws sp ∣ D.length := by
        rw [hD]
        exact hdvdflat _ (fun c hc => (hlens c hc).1)
      have hspW : sp * samplesPerWindow ws sp = ws * 1000 := by
        show sp * (ws * 1000 / sp) = ws * 1000
        rw [Nat.mul_div_cancel' hdvd]
      have hc1W : samplesPerWindow ws sp ≤ c1.length := Nat.le_of_dvd (by omega) hc1.1
      by_cases hap : "angles" ∈ metrics ∧ paddingOf sp hpa = 0
      · obtain ⟨hm, hp0⟩ := hap
        obtain ⟨pc1, rest2, err2, hpr⟩ := paddedRun_cons injRow nanRow3 c1 c2 rest
          (paddingOf sp hpa) (by omega)
        have hpr2 : paddedRun injRow nanRow3 [D] (paddingOf sp hpa) =
            ([(D, List.replicate (paddingOf sp hpa) nanRow3 ++ D.map injRow ++
              List.replicate (paddingOf sp hpa) nanRow3)], none) := by
          rw [paddedRun, paddedGo]
        have hbr1 : blockRows ws sp (paddingOf sp hpa) metrics c1 pc1 = none := by
          rw [hp0]
          exact blockRows_angles_p0 ws sp metrics hm c1 pc1
        have hbrD : blockRows ws sp (paddingOf sp hpa) metrics D
            (List.replicate (paddingOf sp hpa) nanRow3 ++ D.map injRow ++
              List.replicate (paddingOf sp hpa) nanRow3) = none := by
          rw [hp0]
          exact blockRows_angles_p0 ws sp metrics hm D _
        have hL := metricsLoop_head_none ws sp (paddingOf sp hpa) metrics c1 pc1
          rest2 err2
          (by
            have := Nat.mul_le_mul_left sp hc1W
            omega) hbr1
        have hR := metricsLoop_head_none ws sp (paddingOf sp hpa) metrics D
          (List.replicate (paddingOf sp hpa) nanRow3 ++ D.map injRow ++
            List.replicate (paddingOf sp hpa) nanRow3) [] none
          (by
            have h6 : samplesPerWindow ws sp ≤ D.length := by omega
            have := Nat.mul_le_mul_left sp h6
            omega) hbrD
        rw [hpr, hpr2]
        exact hL.trans hR.symm
      · have hang : "angles" ∈ metrics → 1 ≤ paddingOf sp hpa ∧
            2 * paddingOf sp hpa < D.length := by
          intro hm
          have hp1 : 1 ≤ paddingOf sp hpa := by
            rcases Nat.eq_zero_or_pos (paddingOf sp hpa) with h | h
            · exact absurd ⟨hm, h⟩ hap
            · omega
          exact ⟨hp1, by omega⟩
        have hok := paddedGo_ok (samplesPerWindow ws sp) (paddingOf sp hpa) D
          (c2 :: rest) c1 0 (List.replicate (paddingOf sp hpa) nanRow3)
          (by rw [List.drop_zero, hD])
          (by omega)
          hlens
          (by
            intro hp
            rw [List.drop_zero]
            rw [padG]
            rw [List.take_append_of_le_length (by
              rw [List.length_append, List.length_replicate]
              omega)]
            rw [List.take_append_of_le_length (by rw [List.length_replicate])]
            rw [List.take_replicate, Nat.min_self])
        obtain ⟨herr, hpairs⟩ := hok
        have hok2 : pairsOk (samplesPerWindow ws sp) (paddingOf sp hpa) D
            (padG (paddingOf sp hpa) D) 0
            [(D, List.replicate (paddingOf sp hpa) nanRow3 ++ D.map injRow ++
              List.replicate (paddingOf sp hpa) nanRow3)] := by
        
          refine ⟨?_, ?_, hDdvd, by omega, ?_⟩
          · rw [List.drop_zero, List.take_length]
          · intro hp
            rw [List.drop_zero]
            rw [List.take_of_length_le (by rw [padG_length]; omega)]
            rfl
          · show 0 + D.length = D.length
            omega
        have hLHS : metricsLoop ws sp (paddingOf sp hpa) metrics
            (paddedRun injRow nanRow3 (c1 :: c2 :: rest) (paddingOf sp hpa)).1
            (paddedRun injRow nanRow3 (c1 :: c2 :: rest) (paddingOf sp hpa)).2 =
            some ((List.range ((D.length - 0) / samplesPerWindow ws sp)).map
              (fun i => rowAt ws sp (paddingOf sp hpa) metrics D
                (0 + i * samplesPerWindow ws sp))) := by
          rw [show paddedRun injRow nanRow3 (c1 :: c2 :: rest) (paddingOf sp hpa) =
              paddedGo injRow nanRow3 (paddingOf sp hpa)
                (List.replicate (paddingOf sp hpa) nanRow3)
                (List.replicate (paddingOf sp hpa) nanRow3) c1 (c2 :: rest) from by
            rw [paddedRun]]
          rw [herr]
          exact metricsLoop_segments ws sp (paddingOf sp hpa) metrics D hW hdvd hang
            _ 0 hpairs
        have hRHS : metricsLoop ws sp (paddingOf sp hpa) metrics
            (paddedRun injRow nanRow3 [D] (paddingOf sp hpa)).1
            (paddedRun injRow nanRow3 [D] (paddingOf sp hpa)).2 =
            some ((List.range ((D.length - 0) / samplesPerWindow ws sp)).map
              (fun i => rowAt ws sp (paddingOf sp hpa) metrics D
                (0 + i * samplesPerWindow ws sp))) := by
          rw [show paddedRun injRow nanRow3 [D] (paddingOf sp hpa) =
              ([(D, List.replicate (paddingOf sp hpa) nanRow3 ++ D.map injRow ++
                List.replicate (paddingOf sp hpa) nanRow3)], none) from by
            rw [paddedRun, paddedGo]]
          exact metricsLoop_segments ws sp (paddingOf sp hpa) metrics D hW hdvd hang
            _ 0 hok2
        rw [hLHS, hRHS]
    · rw [if_neg hall, if_neg hall]

theorem metricsLoop_head_break (ws sp p : ℕ) (metrics : List String)
    (c : List DRow) (pc : List OV3) (rest : List (List DRow × List OV3))
    (err : Option PadError) (hb : sp * c.length < ws * 1000) :
    metricsLoop ws sp p metrics ((c, pc) :: rest) err = some [] := by
  rw [metricsLoop, if_pos hb]

theorem metricsLoop_single (ws sp p : ℕ) (metrics : List String)
    (c : List DRow) (pc : List OV3)
    (hnb : ¬ sp * c.length < ws * 1000) (rows : List OutRow)
    (hbr : blockRows ws sp p metrics c pc = some rows) :
    metricsLoop ws sp p metrics [(c, pc)] none = some (rows ++ []) := by
  rw [metricsLoop, if_neg hnb, hbr]
  rw [show metricsLoop ws sp p metrics [] none = some [] from by rw [metricsLoop]]

/-- A zero data row. -/
def zeroRow : DRow := (0, ((0:ℝ), 0, 0))

/-- Six zero rows: the counterexample data. -/
def dataC1 : List DRow := [zeroRow, zeroRow, zeroRow, zeroRow, zeroRow, zeroRow]

/-- Four zero rows: the witness data. -/
def dataW4 : List DRow := [zeroRow, zeroRow, zeroRow, zeroRow]

/-- The single-chunk column dictionary of the counterexample run. -/
noncomputable def colsC1 : Cols :=
  ⟨everyNth (samplesPerWindow 1 333) (dataC1.map (fun r => r.1)), none,
   some (en (separate_time_windows (dataC1.map (fun r => r.2)) 1 333)), none⟩

/-- C1 (counterexample).  With `window_size = 1`, `sampling_period = 333`
and `metrics = ["en"]`, every chunk of the 6-row stream is a multiple of
`samples_per_window = 3` and at least as long as the padding, for both
`batch_size = 1` (chunks of `1000 // 333 = 3` rows) and `batch_size = 2`
(one chunk of 6 rows); yet `batch_size = 1` yields an empty table (the
break `sampling_period * len(chunk) < window_size * 1000` fires because
`333 * 3 = 999 < 1000`) while `batch_size = 2` yields two rows, so
`get_metrics` is not chunk-size invariant as claimed. -/
theorem claim_C1_counterexample :
    ∃ (data : List DRow) (ws bs1 bs2 sp : ℕ) (metrics : List String) (hpa : ℚ),
      (∀ c ∈ chunkSplit data (rowsInBatch ws bs1 sp),
          samplesPerWindow ws sp ∣ c.length ∧ paddingOf sp hpa ≤ c.length) ∧
      (∀ c ∈ chunkSplit data (rowsInBatch ws bs2 sp),
          samplesPerWindow ws sp ∣ c.length ∧ paddingOf sp hpa ≤ c.length) ∧
      getMetrics data ws bs1 sp metrics hpa ≠ getMetrics data ws bs2 sp metrics hpa := by
  have hpad : paddingOf 333 1 = 1 := by
    unfold paddingOf
    rw [show pyRound (1000 / ((333:ℕ) : ℚ) / 1) = 3 from by unfold pyRound; norm_num]
    decide
  have h6 : dataC1.length = 6 := rfl
  refine ⟨dataC1, 1, 1, 2, 333, ["en"], 1, ?_, ?_, ?_⟩
  · intro c hc
    rw [show rowsInBatch 1 1 333 = 3 from by decide] at hc
    have h := chunkSplit_lengths 3 (by omega) dataC1.length dataC1 (Nat.le_refl _)
      (by simp [dataC1]) c hc
    rw [h6] at h
    rcases h with h | ⟨h1, h2⟩
    · rw [h]
      refine ⟨by decide, ?_⟩
      rw [hpad]
      omega
    · omega
  · intro c hc
    rw [show rowsInBatch 1 2 333 = 6 from by decide] at hc
    have h := chunkSplit_lengths 6 (by omega) dataC1.length dataC1 (Nat.le_refl _)
      (by simp [dataC1]) c hc
    rw [h6] at h
    rcases h with h | ⟨h1, h2⟩
    · rw [h]
      refine ⟨by decide, ?_⟩
      rw [hpad]
      omega
    · omega
  · -- batch_size 1 breaks immediately; batch_size 2 yields two rows
    have hL : getMetrics dataC1 1 1 333 ["en"] 1 = some [] := by
      unfold getMetrics
      rw [show rowsInBatch 1 1 333 = 3 from by decide]
      have hne := chunkSplit_ne_nil dataC1 3 (by omega) (by simp [dataC1])
      rcases hsp3 : chunkSplit dataC1 3 with _ | ⟨c, rest⟩
      · exact absurd hsp3 hne
      · have hcl : c.length = 3 := by
          have h := chunkSplit_lengths 3 (by omega) dataC1.length dataC1 (Nat.le_refl _)
            (by simp [dataC1]) c (by rw [hsp3]; simp)
          rw [h6] at h
          rcases h with h | ⟨h1, h2⟩
          · exact h
          · omega
        unfold runPipeline
        rw [if_pos (by decide)]
        show metricsLoop 1 333 (paddingOf 333 1) ["en"]
            (paddedRun injRow nanRow3 (c :: rest) (paddingOf 333 1)).1
            (paddedRun injRow nanRow3 (c :: rest) (paddingOf 333 1)).2 =
          some []
        rcases rest with _ | ⟨c2, rest2⟩
        · rw [show paddedRun injRow nanRow3 [c] (paddingOf 333 1) =
              ([(c, List.replicate (paddingOf 333 1) nanRow3 ++ c.map injRow ++
                List.replicate (paddingOf 333 1) nanRow3)], none) from by
            rw [paddedRun, paddedGo]]
          exact metricsLoop_head_break 1 333 _ _ c _ [] none (by rw [hcl]; decide)
        · obtain ⟨pc1, r2, e2, hpr⟩ := paddedRun_cons injRow nanRow3 c c2 rest2
            (paddingOf 333 1) (by rw [hcl, hpad]; omega)
          rw [hpr]
          exact metricsLoop_head_break 1 333 _ _ c pc1 r2 e2 (by rw [hcl]; decide)
    have hsplit6 : chunkSplit dataC1 6 = [dataC1] := by
      have hne6 := chunkSplit_ne_nil dataC1 6 (by omega) (by simp [dataC1])
      rcases hsp : chunkSplit dataC1 6 with _ | ⟨c, rest⟩
      · exact absurd hsp hne6
      · have hjoin : (c :: rest).flatten = dataC1 := by
          rw [← hsp]
          exact chunkSplit_join 6 (by omega) dataC1.length dataC1 (Nat.le_refl _)
        have hcl : c.length = 6 := by
          have h := chunkSplit_lengths 6 (by omega) dataC1.length dataC1 (Nat.le_refl _)
            (by simp [dataC1]) c (by rw [hsp]; simp)
          rw [h6] at h
          rcases h with h | ⟨h1, h2⟩
          · exact h
          · omega
        have hrest : rest = [] := by
          rcases rest with _ | ⟨c2, r2⟩
          · rfl
          · have hc2 := chunkSplit_lengths 6 (by omega) dataC1.length dataC1
              (Nat.le_refl _) (by simp [dataC1]) c2 (by rw [hsp]; simp)
            rw [h6] at hc2
            have hlenj := congrArg List.length hjoin
            rw [List.flatten_cons, List.flatten_cons, List.length_append,
              List.length_append, h6] at hlenj
            rcases hc2 with h | ⟨h1, h2⟩
            · omega
            · omega
        subst hrest
        have hc : c = dataC1 := by simpa using hjoin
        rw [hc]
    have hbr : blockRows 1 333 (paddingOf 333 1) ["en"] dataC1
        (List.replicate (paddingOf 333 1) nanRow3 ++ dataC1.map injRow ++
          List.replicate (paddingOf 333 1) nanRow3) = some (mkRows colsC1) := by
      simp only [blockRows]
      rw [if_neg (by decide : ¬ "angles" ∈ ["en"])]
      rw [if_pos (by decide : "en" ∈ ["en"])]
      rw [if_neg (by decide : ¬ "enmo" ∈ ["en"])]
      rfl
    have hR : getMetrics dataC1 1 2 333 ["en"] 1 = some (mkRows colsC1 ++ []) := by
      unfold getMetrics
      rw [show rowsInBatch 1 2 333 = 6 from by decide]
      rw [hsplit6]
      unfold runPipeline
      rw [if_pos (by decide)]
      show metricsLoop 1 333 (paddingOf 333 1) ["en"]
          (paddedRun injRow nanRow3 [dataC1] (paddingOf 333 1)).1
          (paddedRun injRow nanRow3 [dataC1] (paddingOf 333 1)).2 =
        some (mkRows colsC1 ++ [])
      rw [show paddedRun injRow nanRow3 [dataC1] (paddingOf 333 1) =
          ([(dataC1, List.replicate (paddingOf 333 1) nanRow3 ++ dataC1.map injRow ++
            List.replicate (paddingOf 333 1) nanRow3)], none) from by
        rw [paddedRun, paddedGo]]
      exact metricsLoop_single 1 333 (paddingOf 333 1) ["en"] dataC1 _
        (by decide) _ hbr
    have hdt : colsC1.dt.length = 2 := by
      show (everyNth (samplesPerWindow 1 333) (dataC1.map (fun r => r.1))).length = 2
      rw [everyNth_len (samplesPerWindow 1 333) (by decide) _ _ (Nat.le_refl _)]
      rw [List.length_map]
      decide
    have hang2 : ∀ a ∈ colsC1.ang, min a.1.length (min a.2.1.length a.2.2.length) = 2 := by
      intro a ha
      rw [show colsC1.ang = (none : Option (List ℝ × List ℝ × List ℝ)) from rfl] at ha
      simp at ha
    have hen2 : ∀ e ∈ colsC1.en, e.length = 2 := by
      intro e he
      rw [show colsC1.en = some (en (separate_time_windows
        (dataC1.map (fun r => r.2)) 1 333)) from rfl] at he
      rw [Option.mem_def, Option.some.injEq] at he
      subst he
      rw [en_comp, List.length_map, separate_time_windows_length, List.length_map]
      decide
    have henmo2 : ∀ e ∈ colsC1.enmo, e.length = 2 := by
      intro e he
      rw [show colsC1.enmo = (none : Option (List ℝ)) from rfl] at he
      simp at he
    have hlen2 : (mkRows colsC1 ++ []).length = 2 := by
      rw [List.length_append]
      rw [mkRows_of_lengths colsC1 2 hdt hang2 hen2 henmo2]
      rw [List.length_map, List.length_range]
      rfl
    intro heq
    rw [hL, hR] at heq
    have h0 := Option.some.inj heq
    have hlen0 := congrArg List.length h0
    rw [hlen2] at hlen0
    simp at hlen0

/-- C1 (amended).  Provided `sampling_period` divides
`window_size * 1000`, the stream is nonempty and every chunk of the
batching has a row count that is a (positive) multiple of
`samples_per_window` and strictly exceeds the padding, the output of
`get_metrics` equals the single-pass computation over the un-chunked
input — and is therefore identical for any two batch sizes whose
chunkings satisfy these conditions, including at windows adjacent to
chunk boundaries. -/
theorem claim_C1_amended (data : List DRow) (ws bs1 bs2 sp : ℕ)
    (metrics : List String) (hpa : ℚ)
    (hW : 1 ≤ samplesPerWindow ws sp) (hdvd : sp ∣ ws * 1000) (hdata : data ≠ [])
    (hbs1 : 1 ≤ bs1) (hbs2 : 1 ≤ bs2)
    (hchunks1 : ∀ c ∈ chunkSplit data (rowsInBatch ws bs1 sp),
        samplesPerWindow ws sp ∣ c.length ∧ paddingOf sp hpa < c.length)
    (hchunks2 : ∀ c ∈ chunkSplit data (rowsInBatch ws bs2 sp),
        samplesPerWindow ws sp ∣ c.length ∧ paddingOf sp hpa < c.length) :
    getMetrics data ws bs1 sp metrics hpa = runPipeline ws sp metrics hpa [data] ∧
    getMetrics data ws bs1 sp metrics hpa = getMetrics data ws bs2 sp metrics hpa := by
  have h1 : ∀ bs, 1 ≤ bs →
      (∀ c ∈ chunkSplit data (rowsInBatch ws bs sp),
        samplesPerWindow ws sp ∣ c.length ∧ paddingOf sp hpa < c.length) →
      getMetrics data ws bs sp metrics hpa = runPipeline ws sp metrics hpa [data] := by
    intro bs hbs hchunks
    unfold getMetrics
    have hR : 1 ≤ rowsInBatch ws bs sp := by
      rw [rowsInBatch_mul ws bs sp hdvd]
      have h2 : 1 * 1 ≤ bs * samplesPerWindow ws sp := Nat.mul_le_mul hbs hW
      omega
    have hne := chunkSplit_ne_nil data _ hR hdata
    have hflat := chunkSplit_join (rowsInBatch ws bs sp) hR data.length data
      (Nat.le_refl _)
    rw [runPipeline_eq_single ws sp metrics hpa hW hdvd _ hne hchunks, hflat]
  have e1 := h1 bs1 hbs1 hchunks1
  have e2 := h1 bs2 hbs2 hchunks2
  exact ⟨e1, e1.trans e2.symm⟩

/-- C1 (witness): a 4-row stream, `window_size = 1`,
`sampling_period = 500` (which divides 1000), all three metrics, and
batch sizes 1 and 2. -/
theorem claim_C1_witness :
    getMetrics dataW4 1 1 500 ["angles", "en", "enmo"] 1 =
        runPipeline 1 500 ["angles", "en", "enmo"] 1 [dataW4] ∧
      getMetrics dataW4 1 1 500 ["angles", "en", "enmo"] 1 =
        getMetrics dataW4 1 2 500 ["angles", "en", "enmo"] 1 := by
  have hpad : paddingOf 500 1 = 1 := by
    unfold paddingOf
    rw [show pyRound (1000 / ((500:ℕ) : ℚ) / 1) = 2 from by unfold pyRound; norm_num]
    decide
  have h4 : dataW4.length = 4 := rfl
  have hch1 : ∀ c ∈ chunkSplit dataW4 (rowsInBatch 1 1 500),
      samplesPerWindow 1 500 ∣ c.length ∧ paddingOf 500 1 < c.length := by
    intro c hc
    rw [show rowsInBatch 1 1 500 = 2 from by decide] at hc
    have h := chunkSplit_lengths 2 (by omega) dataW4.length dataW4 (Nat.le_refl _)
      (by simp [dataW4]) c hc
    rw [h4] at h
    rcases h with h | ⟨h1, h2⟩
    · rw [h, hpad]
      exact ⟨by decide, by omega⟩
    · omega
  have hch2 : ∀ c ∈ chunkSplit dataW4 (rowsInBatch 1 2 500),
      samplesPerWindow 1 500 ∣ c.length ∧ paddingOf 500 1 < c.length := by
    intro c hc
    rw [show rowsInBatch 1 2 500 = 4 from by decide] at hc
    have h := chunkSplit_lengths 4 (by omega) dataW4.length dataW4 (Nat.le_refl _)
      (by simp [dataW4]) c hc
    rw [h4] at h
    rcases h with h | ⟨h1, h2⟩
    · rw [h, hpad]
      exact ⟨by decide, by omega⟩
    · omega
  exact claim_C1_amended dataW4 1 1 2 500 ["angles", "en", "enmo"] 1
    (by decide) (by decide) (by simp [dataW4]) (by decide) (by decide) hch1 hch2

end Girrgorr